import Mathlib

/-!
Verification of the Paillier voting core (`Paillier.ts`, `VoteEncoder.ts`,
`PublicKey.ts`, `PrivateKey.ts`, `Signature.ts`, `ZkpCommitment.ts`) against its
specification.

The embedding works over `ℕ` (JavaScript `big-integer` values are arbitrary
precision integers; all values handled by the happy paths are non-negative) and
over `ℤ` where signedness matters.  Modular exponentiation and modular inverse
mirror the `big-integer` library operations `modPow` (square and multiply) and
`modInv` (extended Euclid); both are written with an explicit fuel argument so
that they are structurally recursive and kernel computable.

Randomness is passed explicitly: the sampled primes `p, q` of `generateKeyPair`,
the multiplier `r` of `encrypt`, and the prover randomness `omega, es, zs` of
`createZkp` become arguments constrained by the sampler postconditions.  The
256-bit hash `BigMath.bigIntHashFromBigIntArray` / `bigIntHashFromBigInt`
(whose source file is not part of the repository snapshot) is modelled from the
spec as a function parameter `H` bounded by `2 ^ 256`.
-/

/-- Square-and-multiply exponentiation with explicit fuel, the algorithm used by
the `big-integer` library for `modPow`.  The fuel only bounds the recursion
depth; the exponent is halved every step. -/
def powModAux : ℕ → ℕ → ℕ → ℕ → ℕ
  | 0, _, _, m => 1 % m
  | fuel+1, a, e, m =>
    if e = 0 then 1 % m
    else
      let h := powModAux fuel a (e / 2) m
      if e % 2 = 0 then h * h % m else h * h % m * a % m

/-- Modular exponentiation `a ^ e % m`, the embedding of `BigInteger.modPow`. -/
def modPow (a e m : ℕ) : ℕ := powModAux e a e m

/-- Extended Euclid with explicit fuel, returning `(gcd a b, x, y)` with
`x * a + y * b = gcd a b`; the algorithm behind `BigInteger.modInv`. -/
def egcdAux : ℕ → ℕ → ℕ → ℕ × ℤ × ℤ
  | 0, _, b => (b, 0, 1)
  | fuel+1, a, b =>
    if a = 0 then (b, 0, 1)
    else
      let r := egcdAux fuel (b % a) a
      (r.1, r.2.2 - ((b / a : ℕ) : ℤ) * r.2.1, r.2.1)

/-- Modular inverse `a⁻¹ mod m` as a non-negative representative, the embedding
of `BigInteger.modInv`.  (The library throws when `gcd a m ≠ 1`; every call in
the code under verification happens at coprime arguments.) -/
def modInv (a m : ℕ) : ℕ := ((egcdAux a a m).2.1 % (m : ℤ)).toNat

/-- Public key `(n, g)` with cached `nSquared`, from `PublicKey.ts`. -/
structure PublicKey where
  n : ℕ
  g : ℕ
deriving Repr, DecidableEq

/-- Cached `n.square()` computed by the `PublicKey` constructor. -/
def PublicKey.nSquared (pub : PublicKey) : ℕ := pub.n * pub.n

/-- Private key `(lambda, mu)`, from `PrivateKey.ts`. -/
structure PrivateKey where
  lambda : ℕ
  mu : ℕ
deriving Repr, DecidableEq

/-- Signature pair `(s1, s2)`, from `Signature.ts`. -/
structure Signature where
  s1 : ℕ
  s2 : ℕ
deriving Repr, DecidableEq

/-- Commitment of the OR-proof, from `ZkpCommitment.ts`.  JavaScript arrays
created by `new Array(capacity)` contain holes until assigned; a hole is
modelled as `none`.  The `a` array is fully assigned by every code path of the
prover, so it stays a plain list. -/
structure ZkpCommitment where
  a : List ℕ
  e : List (Option ℕ)
  z : List (Option ℕ)
deriving Repr, DecidableEq

/-- Decidable equality for `Except`, used to evaluate the embedded operations
on concrete inputs. -/
instance exceptDecidableEq {ε α : Type} [DecidableEq ε] [DecidableEq α] :
    DecidableEq (Except ε α) := fun x y =>
  match x, y with
  | Except.error a, Except.error b => decidable_of_iff (a = b) (by simp)
  | Except.error _, Except.ok _ => Decidable.isFalse (by simp)
  | Except.ok _, Except.error _ => Decidable.isFalse (by simp)
  | Except.ok a, Except.ok b => decidable_of_iff (a = b) (by simp)

/-- Concrete 128-bit prime `407 * 2 ^ 119 + 1`; the first sampled prime of the
concrete 256-bit key pair used to instantiate the claims. -/
def pWit : ℕ := 270497897142230380135924736767050121217

/-- Concrete 128-bit prime `949 * 2 ^ 118 + 1`; the second sampled prime of the
concrete 256-bit key pair used to instantiate the claims. -/
def qWit : ℕ := 315359341999971290846428225051511750657

/-- Concrete stand-in for the 256-bit hash used when instantiating the claims:
the sum of the inputs reduced mod `2 ^ 256`. -/
def hashWit (l : List ℕ) : ℕ := l.foldl (· + ·) 0 % 2 ^ 256

/-- Deterministic part of `Paillier.generateKeyPair` after the two random
primes `p` and `q` have been sampled: `n = p q`, `lambda = (p-1)(q-1)/gcd`,
`g = n + 1`, `mu = L(g^lambda mod n²)⁻¹ mod n`. -/
def generateKeyPair (p q : ℕ) : PublicKey × PrivateKey :=
  let n := p * q
  let lambda := (p - 1) * (q - 1) / Nat.gcd (p - 1) (q - 1)
  let g := n + 1
  let u := modPow g lambda (n * n)
  let u2 := (u - 1) / n
  let mu := modInv u2 n
  (PublicKey.mk n g, PrivateKey.mk lambda mu)

/-- Postcondition of the sampling loop of `Paillier.generateKeyPair bits`:
the guard `bits % 8 = 0 ∧ 160 ≤ bits` passed, `p ≠ q` are primes of bit length
`bits / 2`, and `n = p * q` has bit length exactly `bits`. -/
def ValidKeyPair (bits p q : ℕ) : Prop :=
  bits % 8 = 0 ∧ 160 ≤ bits ∧
  Nat.Prime p ∧ Nat.Prime q ∧ p ≠ q ∧
  2 ^ (bits / 2 - 1) ≤ p ∧ p < 2 ^ (bits / 2) ∧
  2 ^ (bits / 2 - 1) ≤ q ∧ q < 2 ^ (bits / 2) ∧
  2 ^ (bits - 1) ≤ p * q ∧ p * q < 2 ^ bits

/-- Ciphertext value `g^m · r^n mod n²` computed by `Paillier.encryptWithR`
via the shortcut `g^m = (n·m + 1) mod n²`. -/
def encBody (pub : PublicKey) (m r : ℕ) : ℕ :=
  (pub.n * m + 1) % pub.nSquared * (modPow r pub.n pub.nSquared) % pub.nSquared

/-- Embedding of `Paillier.encryptWithR` over `ℕ`: guard `m ≥ n`, then the
ciphertext together with the multiplier `r`. -/
def encryptWithR (m : ℕ) (pub : PublicKey) (r : ℕ) : Except String (ℕ × ℕ) :=
  if pub.n ≤ m then Except.error "plaintext must be less than modulo n"
  else Except.ok (encBody pub m r, r)

/-- Embedding of `Paillier.encryptWithR` over `ℤ`, faithful to the JavaScript
`BigInteger` signedness: the only guard is `m ≥ n`, and `mod` truncates toward
zero (sign of the dividend), which is `Int.tmod`. -/
def encryptWithRInt (m : ℤ) (pub : PublicKey) (r : ℕ) : Except String (ℤ × ℕ) :=
  if (pub.n : ℤ) ≤ m then Except.error "plaintext must be less than modulo n"
  else
    Except.ok
      ((Int.tmod ((pub.n : ℤ) * m + 1) (pub.nSquared : ℤ) *
          (modPow r pub.n pub.nSquared : ℕ)).tmod (pub.nSquared : ℤ), r)

/-- Embedding of `Paillier.decrypt`: guard `c ≥ n²`, then
`m = L(c^lambda mod n²) · mu mod n`. -/
def decrypt (c : ℕ) (pub : PublicKey) (priv : PrivateKey) : Except String ℕ :=
  if pub.nSquared ≤ c then Except.error "ciphertext must be less than modulo n^2"
  else Except.ok ((modPow c priv.lambda pub.nSquared - 1) / pub.n * priv.mu % pub.n)

/-- Embedding of `Paillier.addEncrypted`. -/
def addEncrypted (em1 em2 : ℕ) (pub : PublicKey) : ℕ := em1 * em2 % pub.nSquared

/-- Embedding of `Paillier.addScalar`. -/
def addScalar (em k : ℕ) (pub : PublicKey) : ℕ :=
  em * modPow pub.g k pub.nSquared % pub.nSquared

/-- Embedding of `Paillier.mulScalar`. -/
def mulScalar (em k : ℕ) (pub : PublicKey) : ℕ := modPow em k pub.nSquared

/-- Embedding of `Paillier.createSignature`.  The hash value `h` stands for
`BigMath.bigIntHashFromBigInt m` (modelled from the spec, see the file
header). -/
def createSignature (h : ℕ) (pub : PublicKey) (priv : PrivateKey) : Signature :=
  let s1Num := (modPow h priv.lambda pub.nSquared - 1) / pub.n
  let s1 := s1Num * priv.mu % pub.n
  let invN := modInv pub.n priv.lambda
  let test := modPow pub.g s1 pub.n
  let invG := modInv test pub.n
  Signature.mk s1 (modPow (h * invG) invN pub.n)

/-- Embedding of `Paillier.verifySignature`: accept iff
`g^s1 · s2^n mod n² = h` where `h` stands for the 256-bit hash of the
message. -/
def verifySignature (h : ℕ) (sig : Signature) (pub : PublicKey) : Bool :=
  decide (modPow pub.g sig.s1 pub.nSquared * modPow sig.s2 pub.n pub.nSquared
    % pub.nSquared = h)

/-- Clause value `u_i = c · (g^{m_i})⁻¹ mod n²` shared by prover and
verifier. -/
def zkpU (c mi : ℕ) (pub : PublicKey) : ℕ :=
  c * modInv (modPow pub.g mi pub.nSquared) pub.nSquared % pub.nSquared

/-- First message `a_i` of clause `i` of `Paillier.createZkp`:
`z_i^n · (u_i^{e_i})⁻¹ mod n²` for a simulated clause (`m_i ≠ m`), and
`ω^n mod n²` for the real clause. -/
def zkpClauseA (m c : ℕ) (pub : PublicKey) (omega ei zi mi : ℕ) : ℕ :=
  if mi ≠ m then
    modPow zi pub.n pub.nSquared *
      modInv (modPow (zkpU c mi pub) ei pub.nSquared) pub.nSquared % pub.nSquared
  else modPow omega pub.n pub.nSquared

/-- JavaScript `Array.prototype.reduce` with no initial value over the present
entries of an array: throws a `TypeError` on an array with no present element,
otherwise folds from the first element. -/
def reduceAdd : List ℕ → Except String ℕ
  | [] => Except.error "TypeError: Reduce of empty array with no initial value"
  | h :: t => Except.ok (List.foldl (· + ·) h t)

/-- Embedding of `Paillier.createZkp`.  `H` is the 256-bit hash (modelled from
the spec), `omega` the sampled mask, and `es i`, `zs i` the values sampled for
clause `i` when `valid[i] ≠ m`.  `e[mk] = positiveMod (ε - Σ e_i) 2^256` uses
the non-negative representative, per spec 4.6.1. -/
def createZkp (H : List ℕ → ℕ) (m c r : ℕ) (valid : List ℕ) (pub : PublicKey)
    (omega : ℕ) (es zs : ℕ → ℕ) : Except String ZkpCommitment :=
  let k := valid.length
  let idx := List.range k
  let a : List ℕ :=
    idx.map fun i => zkpClauseA m c pub omega (es i) (zs i) (valid.getD i 0)
  let e0 : List (Option ℕ) :=
    idx.map fun i => if valid.getD i 0 ≠ m then some (es i) else none
  let z0 : List (Option ℕ) :=
    idx.map fun i => if valid.getD i 0 ≠ m then some (zs i) else none
  let mk : Option ℕ :=
    idx.foldl (fun acc i => if valid.getD i 0 = m then some i else acc) none
  match mk with
  | none => Except.error "Message m isn not included in the list of valid messages"
  | some k0 =>
    let challenge := H a
    match reduceAdd (e0.filterMap id) with
    | Except.error s => Except.error s
    | Except.ok esumRaw =>
      let esum : ℕ := esumRaw % 2 ^ 256
      let ek := (((challenge : ℤ) - (esum : ℤ)) % (2 ^ 256 : ℤ)).toNat
      let zk := omega * modPow r ek pub.n % pub.n
      Except.ok (ZkpCommitment.mk a (e0.set k0 (some ek)) (z0.set k0 (some zk)))

/-- Per-clause loop of `Paillier.verifyZkp`: checks
`z_i^n = a_i · u_i^{e_i} mod n²` for each valid message; reading a hole
(or running past the end of a commitment array) is a JavaScript `TypeError`. -/
def verifyLoop (c : ℕ) (pub : PublicKey) :
    List ℕ → List ℕ → List (Option ℕ) → List (Option ℕ) → Except String Bool
  | [], _, _, _ => Except.ok true
  | mi :: ms, ai :: arest, some ei :: erest, some zi :: zrest =>
    if modPow zi pub.n pub.nSquared =
        ai * modPow (zkpU c mi pub) ei pub.nSquared % pub.nSquared then
      verifyLoop c pub ms arest erest zrest
    else Except.ok false
  | _ :: _, _, _, _ => Except.error "TypeError: undefined commitment entry"

/-- Embedding of `Paillier.verifyZkp`: the aggregate length check
`3·|valid| = |a| + |e| + |z|`, the challenge-sum check, then the clause
loop. -/
def verifyZkp (H : List ℕ → ℕ) (c : ℕ) (valid : List ℕ)
    (commitment : ZkpCommitment) (pub : PublicKey) : Except String Bool :=
  if valid.length * 3 ≠
      commitment.a.length + commitment.e.length + commitment.z.length then
    Except.error "Invalid commitment or valid messages"
  else
    match reduceAdd (commitment.e.filterMap id) with
    | Except.error s => Except.error s
    | Except.ok esumRaw =>
      if esumRaw % 2 ^ 256 ≠ H commitment.a then Except.ok false
      else verifyLoop c pub valid commitment.a commitment.e commitment.z

/-- JavaScript `ToInt32`: reduce modulo `2^32` into `[-2^31, 2^31)`. -/
def toInt32 (x : ℤ) : ℤ :=
  if x % 4294967296 < 2147483648 then x % 4294967296
  else x % 4294967296 - 4294967296

/-- JavaScript `<<` on numbers: both operands pass through `ToInt32`, the shift
count is taken modulo 32, and the result is again a signed 32-bit value. -/
def jsShl (a : ℤ) (k : ℕ) : ℤ := toInt32 (toInt32 a * 2 ^ (k % 32))

/-- JavaScript `Number.MAX_SAFE_INTEGER`. -/
def maxSafeInteger : ℤ := 9007199254740991

/-- Bitwise and of a `big-integer` value with a JavaScript number; a negative
mask is treated as its twos-complement bit pattern. -/
def bigAnd (x : ℕ) (y : ℤ) : ℕ :=
  if 0 ≤ y then x &&& y.toNat else Nat.ldiff x (-(y + 1)).toNat

/-- Embedding of `VoteEncoder.encodeSingle`: the four guards of the source in
order (note the third-guard comparison `2 << (bitsPerChoice - 1)` is a 32-bit
JavaScript shift), then `1 << (bitsPerChoice * (bin * numChoices + choice))`
computed with the arbitrary-precision `BigInteger.shiftLeft`. -/
def encodeSingle (choice numChoices bitsPerChoice bin numBins : ℕ) :
    Except String ℕ :=
  if numChoices ≤ choice ∨ numChoices < 2 then Except.error "Invlid choices"
  else if 0 < numBins ∧ numBins ≤ bin then Except.error "Invalid bins"
  else if bitsPerChoice < 2 then Except.error "bitsPerChoice must be at least 2"
  else if maxSafeInteger ≤ jsShl 2 (bitsPerChoice - 1) then
    Except.error "Too big voting space, exceeds max int"
  else Except.ok (2 ^ (bitsPerChoice * (bin * numChoices + choice)))

/-- Embedding of `VoteEncoder.decode`: for each choice, shift right by
`choice * bitsPerChoice` and mask with `(1 << (bitsPerChoice - 1)) - 1`, where
the mask shift is again a 32-bit JavaScript shift. -/
def decode (encoded : ℕ) (numChoices bitsPerChoice : ℕ) :
    Except String (List ℕ) :=
  if maxSafeInteger ≤ jsShl 2 (bitsPerChoice - 1) then
    Except.error "Too big voting space, exceeds max int"
  else
    Except.ok ((List.range numChoices).map fun choice =>
      bigAnd (encoded >>> (choice * bitsPerChoice))
        (jsShl 1 (bitsPerChoice - 1) - 1))

/-! ### Correctness of the arithmetic helpers -/

theorem powModAux_spec : ∀ (fuel a e m : ℕ), e < 2 ^ fuel →
    powModAux fuel a e m = a ^ e % m := by
  intro fuel
  induction fuel with
  | zero =>
    intro a e m he
    have he0 : e = 0 := by simpa using he
    subst he0
    simp [powModAux]
  | succ f ih =>
    intro a e m he
    by_cases h0 : e = 0
    · subst h0; simp [powModAux]
    · have he2 : e / 2 < 2 ^ f := by
        rw [Nat.div_lt_iff_lt_mul (by norm_num : (0:ℕ) < 2)]
        calc e < 2 ^ (f + 1) := he
        _ = 2 ^ f * 2 := by rw [pow_succ]
      have hrec : powModAux f a (e / 2) m = a ^ (e / 2) % m := ih a (e / 2) m he2
      simp only [powModAux, if_neg h0, hrec]
      rcases Nat.even_or_odd e with heven | hodd
      · have hm2 : e % 2 = 0 := Nat.even_iff.mp heven
        have hsplit : e / 2 + e / 2 = e := by omega
        simp only [if_pos hm2]
        rw [← Nat.mul_mod, ← pow_add, hsplit]
      · have hm2 : e % 2 = 1 := Nat.odd_iff.mp hodd
        have hsplit : e / 2 + e / 2 + 1 = e := by omega
        simp only [hm2, if_neg one_ne_zero]
        rw [← Nat.mul_mod, Nat.mod_mul_mod, ← pow_add, ← pow_succ, hsplit]

theorem modPow_spec (a e m : ℕ) : modPow a e m = a ^ e % m :=
  powModAux_spec e a e m (Nat.lt_two_pow e)

theorem modPow_lt (a e : ℕ) {m : ℕ} (hm : 0 < m) : modPow a e m < m := by
  rw [modPow_spec]; exact Nat.mod_lt _ hm

theorem egcdAux_spec : ∀ (fuel a b : ℕ), a ≤ fuel →
    (egcdAux fuel a b).1 = Nat.gcd a b ∧
    (egcdAux fuel a b).2.1 * (a : ℤ) + (egcdAux fuel a b).2.2 * (b : ℤ) =
      (Nat.gcd a b : ℤ) := by
  intro fuel
  induction fuel with
  | zero =>
    intro a b ha
    have ha0 : a = 0 := Nat.le_zero.mp ha
    subst ha0
    simp [egcdAux]
  | succ f ih =>
    intro a b ha
    by_cases h0 : a = 0
    · subst h0
      have hred : egcdAux (f + 1) 0 b = (b, 0, 1) := by
        rw [egcdAux]
        norm_num
      rw [hred]
      simp
    · have hpos : 0 < a := Nat.pos_of_ne_zero h0
      have hrec := ih (b % a) a (by
        have := Nat.mod_lt b hpos
        omega)
      obtain ⟨h1, h2⟩ := hrec
      have hgr : Nat.gcd a b = Nat.gcd (b % a) a := Nat.gcd_rec a b
      have hcast : ((b % a : ℕ) : ℤ) = (b : ℤ) - ((b / a : ℕ) : ℤ) * (a : ℤ) := by
        have hqz : (a : ℤ) * ((b / a : ℕ) : ℤ) + ((b % a : ℕ) : ℤ) = (b : ℤ) := by
          exact_mod_cast Nat.div_add_mod b a
        linarith
      have hunf : egcdAux (f + 1) a b =
          ((egcdAux f (b % a) a).1,
           (egcdAux f (b % a) a).2.2 -
             ((b / a : ℕ) : ℤ) * (egcdAux f (b % a) a).2.1,
           (egcdAux f (b % a) a).2.1) := by
        rw [egcdAux, if_neg h0]
      rw [hunf]
      constructor
      · rw [h1, ← hgr]
      · rw [← hgr] at h2
        linear_combination h2 - (egcdAux f (b % a) a).2.1 * hcast

theorem modInv_lt (a : ℕ) {m : ℕ} (hm : 0 < m) : modInv a m < m := by
  unfold modInv
  have hm0 : (m : ℤ) ≠ 0 := by exact_mod_cast hm.ne'
  have h3 := Int.emod_nonneg ((egcdAux a a m).2.1) hm0
  have h4 := Int.emod_lt_of_pos ((egcdAux a a m).2.1) (Int.natCast_pos.mpr hm)
  omega

theorem modInv_mul (a m : ℕ) (hm : 1 < m) (h : Nat.Coprime a m) :
    a * modInv a m % m = 1 := by
  obtain ⟨h1, h2⟩ := egcdAux_spec a a m le_rfl
  have hg : (Nat.gcd a m : ℤ) = 1 := by rw [h]; norm_num
  rw [hg] at h2
  have hmz : (0:ℤ) < (m : ℤ) := Int.natCast_pos.mpr (Nat.lt_of_lt_of_le Nat.zero_lt_one hm.le)
  have hm0 : (m : ℤ) ≠ 0 := hmz.ne'
  set x : ℤ := (egcdAux a a m).2.1 with hx
  set y : ℤ := (egcdAux a a m).2.2 with hy
  have h3 : 0 ≤ x % (m:ℤ) := Int.emod_nonneg x hm0
  have htn : ((x % (m:ℤ)).toNat : ℤ) = x % (m:ℤ) := Int.toNat_of_nonneg h3
  have hmodeq : ((a : ℤ) * x) % (m : ℤ) = 1 % (m : ℤ) := by
    have hrepr : (a:ℤ) * x = 1 + (m:ℤ) * (-y) := by linear_combination h2
    rw [hrepr, Int.add_mul_emod_self_left]
  have hone : (1 : ℤ) % (m : ℤ) = 1 :=
    Int.emod_eq_of_lt (by norm_num) (by exact_mod_cast hm)
  have hz : ((a : ℤ) * ((x % (m:ℤ)).toNat : ℤ)) % (m : ℤ) = 1 := by
    rw [htn, Int.mul_emod, Int.emod_emod_of_dvd x dvd_rfl, ← Int.mul_emod,
      hmodeq, hone]
  have hfin : ((a * modInv a m % m : ℕ) : ℤ) = 1 := by
    unfold modInv
    push_cast
    exact hz
  exact_mod_cast hfin

/-! ### Modular arithmetic facts for the Paillier group -/

theorem one_add_mul_pow_modEq (n t : ℕ) : ∀ k : ℕ,
    (1 + n * t) ^ k ≡ 1 + n * (t * k) [MOD n * n] := by
  intro k
  induction k with
  | zero =>
    simp only [pow_zero, Nat.mul_zero, Nat.add_zero]
    exact Nat.ModEq.refl 1
  | succ j ih =>
    have h3 : (1 + n * (t * j)) * (1 + n * t) =
        1 + n * (t * (j + 1)) + n * n * (t * t * j) := by ring
    calc (1 + n * t) ^ (j + 1)
        = (1 + n * t) ^ j * (1 + n * t) := pow_succ _ _
      _ ≡ (1 + n * (t * j)) * (1 + n * t) [MOD n * n] := Nat.ModEq.mul_right _ ih
      _ = 1 + n * (t * (j + 1)) + n * n * (t * t * j) := h3
      _ ≡ 1 + n * (t * (j + 1)) [MOD n * n] :=
          Nat.add_mul_mod_self_left (1 + n * (t * (j + 1))) (n * n) (t * t * j)

theorem one_add_mul_mod (n t : ℕ) (hn : 2 ≤ n) :
    (1 + n * t) % (n * n) = 1 + n * (t % n) := by
  have hd : 1 + n * t = 1 + n * (t % n) + n * n * (t / n) := by
    conv_lhs => rw [← Nat.mod_add_div t n]
    ring
  rw [hd, Nat.add_mul_mod_self_left]
  apply Nat.mod_eq_of_lt
  have h1 : t % n < n := Nat.mod_lt _ (by omega)
  have h2 : n * (t % n + 1) ≤ n * n := Nat.mul_le_mul_left n (by omega)
  have h3 : n * (t % n) + n = n * (t % n + 1) := by ring
  omega

theorem mod_pow_sq (x n : ℕ) : (x % n) ^ n ≡ x ^ n [MOD n * n] := by
  rcases Nat.eq_zero_or_pos n with h0 | hpos
  · subst h0; simp [Nat.ModEq.refl]
  · have hcast : ((x % n : ℕ) : ℤ) = (x : ℤ) - ((x / n : ℕ) : ℤ) * (n : ℤ) := by
      have hqz : (n : ℤ) * ((x / n : ℕ) : ℤ) + ((x % n : ℕ) : ℤ) = (x : ℤ) := by
        exact_mod_cast Nat.div_add_mod x n
      linarith
    have hdvd : ((n : ℤ)) ∣ (x : ℤ) - ((x % n : ℕ) : ℤ) :=
      ⟨((x / n : ℕ) : ℤ), by linarith⟩
    have h2 := dvd_sub_pow_of_dvd_sub hdvd 1
    rw [pow_one] at h2
    have h3 : ((n * n : ℕ) : ℤ) ∣ ((x ^ n : ℕ) : ℤ) - (((x % n) ^ n : ℕ) : ℤ) := by
      push_cast
      have hnn : ((n : ℤ)) ^ 2 = (n : ℤ) * (n : ℤ) := sq (n : ℤ) ▸ rfl
      calc ((n : ℤ)) * (n : ℤ) = (n : ℤ) ^ 2 := by ring
      _ ∣ (x : ℤ) ^ n - ((x % n : ℕ) : ℤ) ^ n := h2
    exact (Nat.modEq_iff_dvd).mpr h3

theorem pow_one_mod_of_dvd (x m E d : ℕ) (hd : d ∣ E) (h1 : x ^ d ≡ 1 [MOD m]) :
    x ^ E ≡ 1 [MOD m] := by
  obtain ⟨c, hc⟩ := hd
  subst hc
  calc x ^ (d * c) = (x ^ d) ^ c := pow_mul x d c
    _ ≡ 1 ^ c [MOD m] := h1.pow c
    _ = 1 := one_pow c

theorem carmichael_prime_sq (p x E : ℕ) (hp : p.Prime) (hx : Nat.Coprime x p)
    (hdvd : p * (p - 1) ∣ E) : x ^ E ≡ 1 [MOD p * p] := by
  have hφ : Nat.totient (p ^ 2) = p * (p - 1) := by
    rw [Nat.totient_prime_pow hp (by norm_num : 0 < 2)]
    norm_num
  have hxp : Nat.Coprime x (p ^ 2) := hx.pow_right 2
  have h1 : x ^ Nat.totient (p ^ 2) ≡ 1 [MOD p ^ 2] := Nat.ModEq.pow_totient hxp
  rw [hφ] at h1
  have h2 : x ^ E ≡ 1 [MOD p ^ 2] := pow_one_mod_of_dvd x (p ^ 2) E (p * (p - 1)) hdvd h1
  have hsq : p ^ 2 = p * p := sq p
  rwa [hsq] at h2

theorem carmichael_prime (p x E : ℕ) (hp : p.Prime) (hx : Nat.Coprime x p)
    (hdvd : (p - 1) ∣ E) : x ^ E ≡ 1 [MOD p] := by
  have h1 : x ^ (p - 1) ≡ 1 [MOD p] := by
    have := Nat.ModEq.pow_totient hx
    rwa [Nat.totient_prime hp] at this
  exact pow_one_mod_of_dvd x p E (p - 1) hdvd h1

theorem carmichael_combine_sq (p q x E : ℕ) (hp : p.Prime) (hq : q.Prime)
    (hne : p ≠ q) (hx : Nat.Coprime x (p * q))
    (hdp : p * (p - 1) ∣ E) (hdq : q * (q - 1) ∣ E) :
    x ^ E ≡ 1 [MOD (p * q) * (p * q)] := by
  have hxp : Nat.Coprime x p := Nat.Coprime.coprime_dvd_right (dvd_mul_right p q) hx
  have hxq : Nat.Coprime x q := Nat.Coprime.coprime_dvd_right (dvd_mul_left q p) hx
  have h1 := carmichael_prime_sq p x E hp hxp hdp
  have h2 := carmichael_prime_sq q x E hq hxq hdq
  have hpq : Nat.Coprime p q := (Nat.coprime_primes hp hq).mpr hne
  have hco : Nat.Coprime (p * p) (q * q) :=
    Nat.Coprime.mul (hpq.mul_right hpq) (hpq.mul_right hpq)
  have h3 : x ^ E ≡ 1 [MOD (p * p) * (q * q)] :=
    (Nat.modEq_and_modEq_iff_modEq_mul hco).mp ⟨h1, h2⟩
  have harr : (p * p) * (q * q) = (p * q) * (p * q) := by ring
  rwa [harr] at h3

theorem carmichael_combine (p q x E : ℕ) (hp : p.Prime) (hq : q.Prime)
    (hne : p ≠ q) (hx : Nat.Coprime x (p * q))
    (hdp : (p - 1) ∣ E) (hdq : (q - 1) ∣ E) :
    x ^ E ≡ 1 [MOD p * q] := by
  have hxp : Nat.Coprime x p := Nat.Coprime.coprime_dvd_right (dvd_mul_right p q) hx
  have hxq : Nat.Coprime x q := Nat.Coprime.coprime_dvd_right (dvd_mul_left q p) hx
  have h1 := carmichael_prime p x E hp hxp hdp
  have h2 := carmichael_prime q x E hq hxq hdq
  have hpq : Nat.Coprime p q := (Nat.coprime_primes hp hq).mpr hne
  exact (Nat.modEq_and_modEq_iff_modEq_mul hpq).mp ⟨h1, h2⟩

theorem dvd_n_lcm_left (p q : ℕ) :
    p * (p - 1) ∣ (p * q) * Nat.lcm (p - 1) (q - 1) := by
  obtain ⟨c, hc⟩ := Nat.dvd_lcm_left (p - 1) (q - 1)
  exact ⟨q * c, by rw [hc]; ring⟩

theorem dvd_n_lcm_right (p q : ℕ) :
    q * (q - 1) ∣ (p * q) * Nat.lcm (p - 1) (q - 1) := by
  obtain ⟨c, hc⟩ := Nat.dvd_lcm_right (p - 1) (q - 1)
  exact ⟨p * c, by rw [hc]; ring⟩

theorem not_dvd_pred (p q s : ℕ) (hp : p.Prime) (hq : q.Prime)
    (hpl : 2 ^ (s - 1) ≤ p) (hqu : q < 2 ^ s) (hs : 2 ≤ s)
    (hp2 : 2 < p) (hq2 : 2 < q) : ¬ p ∣ (q - 1) := by
  intro hdvd
  obtain ⟨d, hd⟩ := hdvd
  have hd1 : 0 < d := by
    rcases Nat.eq_zero_or_pos d with h | h
    · subst h; omega
    · exact h
  have h2s : (2:ℕ) ^ s = 2 * 2 ^ (s - 1) := by
    conv_lhs => rw [show s = (s - 1) + 1 by omega]
    rw [pow_succ]
    ring
  have hlt : q - 1 < 2 * p := by omega
  have hdeq : d = 1 := by
    by_contra hne1
    have hd2 : 2 ≤ d := by omega
    have : p * 2 ≤ p * d := Nat.mul_le_mul_left p hd2
    omega
  rw [hdeq, Nat.mul_one] at hd
  have hq1p : q = p + 1 := by omega
  have hop : Odd p := hp.odd_of_ne_two (by omega)
  have hoq : Odd q := hq.odd_of_ne_two (by omega)
  rcases hop with ⟨a, ha⟩
  rcases hoq with ⟨b, hb⟩
  omega

theorem validKey_lambda_coprime (bits p q : ℕ) (hk : ValidKeyPair bits p q) :
    Nat.Coprime (Nat.lcm (p - 1) (q - 1)) (p * q) := by
  obtain ⟨h8, h160, hp, hq, hne, hpl, hpu, hql, hqu, hnl, hnu⟩ := hk
  have hs2 : 2 ≤ bits / 2 := by omega
  have h4 : (2:ℕ) ^ 2 ≤ 2 ^ (bits / 2 - 1) :=
    Nat.pow_le_pow_right (by norm_num) (by omega)
  have hp2 : 2 < p := by omega
  have hq2 : 2 < q := by omega
  have hnp : ¬ p ∣ (q - 1) := not_dvd_pred p q (bits / 2) hp hq hpl hqu hs2 hp2 hq2
  have hnq : ¬ q ∣ (p - 1) := not_dvd_pred q p (bits / 2) hq hp hql hpu hs2 hq2 hp2
  have hlcm_dvd : Nat.lcm (p - 1) (q - 1) ∣ (p - 1) * (q - 1) :=
    Nat.lcm_dvd (dvd_mul_right _ _) (dvd_mul_left _ _)
  have hcp : Nat.Coprime (Nat.lcm (p - 1) (q - 1)) p := by
    rw [Nat.coprime_comm, Nat.Prime.coprime_iff_not_dvd hp]
    intro hdvd
    rcases (Nat.Prime.dvd_mul hp).mp (hdvd.trans hlcm_dvd) with h | h
    · exact absurd (Nat.le_of_dvd (by omega) h) (by omega)
    · exact hnp h
  have hcq : Nat.Coprime (Nat.lcm (p - 1) (q - 1)) q := by
    rw [Nat.coprime_comm, Nat.Prime.coprime_iff_not_dvd hq]
    intro hdvd
    rcases (Nat.Prime.dvd_mul hq).mp (hdvd.trans hlcm_dvd) with h | h
    · exact hnq h
    · exact absurd (Nat.le_of_dvd (by omega) h) (by omega)
  exact Nat.Coprime.mul_right hcp hcq

/-! ### The generated key pair -/

theorem gkp_n (p q : ℕ) : (generateKeyPair p q).1.n = p * q := rfl

theorem gkp_g (p q : ℕ) : (generateKeyPair p q).1.g = p * q + 1 := rfl

theorem gkp_nSquared (p q : ℕ) :
    (generateKeyPair p q).1.nSquared = (p * q) * (p * q) := rfl

theorem gkp_lambda (p q : ℕ) :
    (generateKeyPair p q).2.lambda = Nat.lcm (p - 1) (q - 1) := rfl

theorem gkp_mu (p q : ℕ) (h2 : 2 ≤ p * q) :
    (generateKeyPair p q).2.mu =
      modInv (Nat.lcm (p - 1) (q - 1) % (p * q)) (p * q) := by
  have hmp : modPow (p * q + 1) (Nat.lcm (p - 1) (q - 1)) ((p * q) * (p * q)) =
      1 + (p * q) * (Nat.lcm (p - 1) (q - 1) % (p * q)) := by
    rw [modPow_spec]
    have e2 : (p * q + 1) ^ Nat.lcm (p - 1) (q - 1) % ((p * q) * (p * q)) =
        (1 + (p * q) * (1 * Nat.lcm (p - 1) (q - 1))) % ((p * q) * (p * q)) := by
      have h1 : p * q + 1 = 1 + p * q * 1 := by ring
      rw [h1]
      exact one_add_mul_pow_modEq (p * q) 1 (Nat.lcm (p - 1) (q - 1))
    rw [e2, one_mul, one_add_mul_mod (p * q) _ h2]
  show modInv ((modPow (p * q + 1) ((p - 1) * (q - 1) / Nat.gcd (p - 1) (q - 1))
      ((p * q) * (p * q)) - 1) / (p * q)) (p * q) = _
  have hL : (p - 1) * (q - 1) / Nat.gcd (p - 1) (q - 1) = Nat.lcm (p - 1) (q - 1) := rfl
  rw [hL, hmp]
  have h3 : 1 + (p * q) * (Nat.lcm (p - 1) (q - 1) % (p * q)) - 1 =
      (p * q) * (Nat.lcm (p - 1) (q - 1) % (p * q)) := by omega
  rw [h3, Nat.mul_div_cancel_left _ (by omega : 0 < p * q)]

theorem gkp_mu_lambda (bits p q : ℕ) (hk : ValidKeyPair bits p q) :
    Nat.lcm (p - 1) (q - 1) * (generateKeyPair p q).2.mu % (p * q) = 1 := by
  have hco := validKey_lambda_coprime bits p q hk
  have hp := hk.2.2.1
  have hq := hk.2.2.2.1
  have h2 : 2 ≤ p * q :=
    le_trans (by norm_num) (Nat.mul_le_mul hp.two_le hq.two_le)
  have hmod : Nat.Coprime (Nat.lcm (p - 1) (q - 1) % (p * q)) (p * q) := by
    have hgr : Nat.gcd (Nat.lcm (p - 1) (q - 1) % (p * q)) (p * q) =
        Nat.gcd (p * q) (Nat.lcm (p - 1) (q - 1)) := (Nat.gcd_rec _ _).symm
    have : Nat.gcd (p * q) (Nat.lcm (p - 1) (q - 1)) = 1 := by
      rw [Nat.gcd_comm]
      exact hco
    unfold Nat.Coprime
    rw [hgr, this]
  rw [gkp_mu p q h2]
  have hmm := modInv_mul (Nat.lcm (p - 1) (q - 1) % (p * q)) (p * q) (by omega) hmod
  calc Nat.lcm (p - 1) (q - 1) *
        modInv (Nat.lcm (p - 1) (q - 1) % (p * q)) (p * q) % (p * q)
      = Nat.lcm (p - 1) (q - 1) % (p * q) *
        modInv (Nat.lcm (p - 1) (q - 1) % (p * q)) (p * q) % (p * q) :=
        (Nat.mod_mul_mod).symm
    _ = 1 := hmm

theorem encBody_modEq (p q m r : ℕ) :
    encBody (generateKeyPair p q).1 m r ≡
      (1 + (p * q) * m) * r ^ (p * q) [MOD (p * q) * (p * q)] := by
  show encBody (generateKeyPair p q).1 m r % ((p * q) * (p * q)) =
    (1 + (p * q) * m) * r ^ (p * q) % ((p * q) * (p * q))
  unfold encBody
  rw [gkp_n, gkp_nSquared, modPow_spec]
  rw [← Nat.mul_mod, Nat.mod_mod_of_dvd _ dvd_rfl]
  have h1 : p * q * m + 1 = 1 + p * q * m := by ring
  rw [h1]

theorem encBody_lt (p q m r : ℕ) (h2 : 0 < p * q) :
    encBody (generateKeyPair p q).1 m r < (p * q) * (p * q) := by
  have : encBody (generateKeyPair p q).1 m r =
      encBody (generateKeyPair p q).1 m r % ((p * q) * (p * q)) := by
    unfold encBody
    rw [gkp_nSquared]
    rw [Nat.mod_mod_of_dvd _ dvd_rfl]
  rw [this]
  exact Nat.mod_lt _ (by positivity)

theorem decrypt_ok (bits p q M ρ c : ℕ) (hk : ValidKeyPair bits p q)
    (hρ : Nat.Coprime ρ (p * q))
    (hc : c ≡ (1 + (p * q) * M) * ρ ^ (p * q) [MOD (p * q) * (p * q)])
    (hlt : c < (p * q) * (p * q)) :
    decrypt c (generateKeyPair p q).1 (generateKeyPair p q).2 =
      Except.ok (M % (p * q)) := by
  have hmuL := gkp_mu_lambda bits p q hk
  have hp := hk.2.2.1
  have hq := hk.2.2.2.1
  have hne := hk.2.2.2.2.1
  have h2 : 2 ≤ p * q :=
    le_trans (by norm_num) (Nat.mul_le_mul hp.two_le hq.two_le)
  have hcar : ρ ^ ((p * q) * Nat.lcm (p - 1) (q - 1)) ≡ 1 [MOD (p * q) * (p * q)] :=
    carmichael_combine_sq p q ρ _ hp hq hne hρ (dvd_n_lcm_left p q) (dvd_n_lcm_right p q)
  have hpowL : c ^ Nat.lcm (p - 1) (q - 1) ≡
      1 + (p * q) * (M * Nat.lcm (p - 1) (q - 1)) [MOD (p * q) * (p * q)] := by
    have step : c ^ Nat.lcm (p - 1) (q - 1) ≡
        (1 + (p * q) * (M * Nat.lcm (p - 1) (q - 1))) * 1 [MOD (p * q) * (p * q)] := by
      calc c ^ Nat.lcm (p - 1) (q - 1)
          ≡ ((1 + (p * q) * M) * ρ ^ (p * q)) ^ Nat.lcm (p - 1) (q - 1)
            [MOD (p * q) * (p * q)] := hc.pow _
        _ = (1 + (p * q) * M) ^ Nat.lcm (p - 1) (q - 1) *
            ρ ^ ((p * q) * Nat.lcm (p - 1) (q - 1)) := by rw [mul_pow, ← pow_mul]
        _ ≡ (1 + (p * q) * (M * Nat.lcm (p - 1) (q - 1))) * 1
            [MOD (p * q) * (p * q)] :=
            Nat.ModEq.mul (one_add_mul_pow_modEq (p * q) M _) hcar
    rwa [mul_one] at step
  unfold decrypt
  rw [if_neg (show ¬ ((generateKeyPair p q).1.nSquared ≤ c) from by
    rw [gkp_nSquared]; omega)]
  have hval : (modPow c (generateKeyPair p q).2.lambda (generateKeyPair p q).1.nSquared - 1) /
      (generateKeyPair p q).1.n * (generateKeyPair p q).2.mu % (generateKeyPair p q).1.n =
      M % (p * q) := by
    rw [gkp_lambda, gkp_nSquared, gkp_n, modPow_spec]
    have e1 : c ^ Nat.lcm (p - 1) (q - 1) % ((p * q) * (p * q)) =
        1 + (p * q) * ((M * Nat.lcm (p - 1) (q - 1)) % (p * q)) := by
      rw [show c ^ Nat.lcm (p - 1) (q - 1) % ((p * q) * (p * q)) =
        (1 + (p * q) * (M * Nat.lcm (p - 1) (q - 1))) % ((p * q) * (p * q)) from hpowL]
      exact one_add_mul_mod (p * q) _ h2
    rw [e1]
    have e2 : 1 + (p * q) * ((M * Nat.lcm (p - 1) (q - 1)) % (p * q)) - 1 =
        (p * q) * ((M * Nat.lcm (p - 1) (q - 1)) % (p * q)) := by omega
    rw [e2, Nat.mul_div_cancel_left _ (by omega : 0 < p * q)]
    rw [Nat.mod_mul_mod]
    have e3 : M * Nat.lcm (p - 1) (q - 1) * (generateKeyPair p q).2.mu =
        M * (Nat.lcm (p - 1) (q - 1) * (generateKeyPair p q).2.mu) := by ring
    rw [e3, Nat.mul_mod, hmuL, mul_one, Nat.mod_mod_of_dvd _ dvd_rfl]
  rw [hval]

/-! ### Claims about encryption and decryption -/

/-- C1: for every key pair returned by `generateKeyPair bits` with
`bits ≥ 160` and `bits % 8 = 0` (sampled primes `p`, `q`), and every plaintext
`m < n` and sampled multiplier `r` (coprime to `n` and below `n`),
`decrypt (encrypt m pub) pub priv = m`. -/
theorem claim1_encrypt_decrypt_roundtrip (bits p q m r : ℕ)
    (hk : ValidKeyPair bits p q) (hm : m < p * q)
    (hr : Nat.Coprime r (p * q)) (hrlt : r < p * q) :
    ∃ c : ℕ, encryptWithR m (generateKeyPair p q).1 r = Except.ok (c, r) ∧
      decrypt c (generateKeyPair p q).1 (generateKeyPair p q).2 = Except.ok m := by
  have hp := hk.2.2.1
  have hq := hk.2.2.2.1
  have h2 : 2 ≤ p * q :=
    le_trans (by norm_num) (Nat.mul_le_mul hp.two_le hq.two_le)
  refine ⟨encBody (generateKeyPair p q).1 m r, ?_, ?_⟩
  · unfold encryptWithR
    rw [if_neg (show ¬ ((generateKeyPair p q).1.n ≤ m) from by rw [gkp_n]; omega)]
  · have h := decrypt_ok bits p q m r (encBody (generateKeyPair p q).1 m r) hk hr
      (encBody_modEq p q m r) (encBody_lt p q m r (by omega))
    rwa [Nat.mod_eq_of_lt hm] at h

/-- C2: homomorphic addition; decrypting the product of two ciphertexts mod
`n²` gives the sum of the plaintexts mod `n`. -/
theorem claim2_homomorphic_add (bits p q m1 m2 r1 r2 : ℕ)
    (hk : ValidKeyPair bits p q) (hm1 : m1 < p * q) (hm2 : m2 < p * q)
    (hr1 : Nat.Coprime r1 (p * q)) (hr1lt : r1 < p * q)
    (hr2 : Nat.Coprime r2 (p * q)) (hr2lt : r2 < p * q) :
    ∃ c1 c2 : ℕ,
      encryptWithR m1 (generateKeyPair p q).1 r1 = Except.ok (c1, r1) ∧
      encryptWithR m2 (generateKeyPair p q).1 r2 = Except.ok (c2, r2) ∧
      decrypt (addEncrypted c1 c2 (generateKeyPair p q).1) (generateKeyPair p q).1
        (generateKeyPair p q).2 = Except.ok ((m1 + m2) % (p * q)) := by
  have hp := hk.2.2.1
  have hq := hk.2.2.2.1
  have h2 : 2 ≤ p * q :=
    le_trans (by norm_num) (Nat.mul_le_mul hp.two_le hq.two_le)
  refine ⟨encBody (generateKeyPair p q).1 m1 r1, encBody (generateKeyPair p q).1 m2 r2,
    ?_, ?_, ?_⟩
  · unfold encryptWithR
    rw [if_neg (show ¬ ((generateKeyPair p q).1.n ≤ m1) from by rw [gkp_n]; omega)]
  · unfold encryptWithR
    rw [if_neg (show ¬ ((generateKeyPair p q).1.n ≤ m2) from by rw [gkp_n]; omega)]
  · apply decrypt_ok bits p q (m1 + m2) (r1 * r2) _ hk (Nat.Coprime.mul hr1 hr2)
    · unfold addEncrypted
      rw [gkp_nSquared]
      have hmul : encBody (generateKeyPair p q).1 m1 r1 *
          encBody (generateKeyPair p q).1 m2 r2 ≡
          (1 + (p * q) * (m1 + m2)) * (r1 * r2) ^ (p * q)
            [MOD (p * q) * (p * q)] := by
        calc encBody (generateKeyPair p q).1 m1 r1 *
            encBody (generateKeyPair p q).1 m2 r2
            ≡ ((1 + (p * q) * m1) * r1 ^ (p * q)) *
              ((1 + (p * q) * m2) * r2 ^ (p * q)) [MOD (p * q) * (p * q)] :=
              Nat.ModEq.mul (encBody_modEq p q m1 r1) (encBody_modEq p q m2 r2)
          _ = (1 + (p * q) * (m1 + m2)) * (r1 * r2) ^ (p * q) +
              ((p * q) * (p * q)) * (m1 * m2 * (r1 * r2) ^ (p * q)) := by
              rw [mul_pow]; ring
          _ ≡ (1 + (p * q) * (m1 + m2)) * (r1 * r2) ^ (p * q)
              [MOD (p * q) * (p * q)] :=
              Nat.add_mul_mod_self_left _ ((p * q) * (p * q)) _
      calc encBody (generateKeyPair p q).1 m1 r1 *
          encBody (generateKeyPair p q).1 m2 r2 % ((p * q) * (p * q))
          ≡ encBody (generateKeyPair p q).1 m1 r1 *
            encBody (generateKeyPair p q).1 m2 r2 [MOD (p * q) * (p * q)] :=
            Nat.mod_mod_of_dvd _ dvd_rfl
        _ ≡ (1 + (p * q) * (m1 + m2)) * (r1 * r2) ^ (p * q)
            [MOD (p * q) * (p * q)] := hmul
    · unfold addEncrypted
      rw [gkp_nSquared]
      have hpos : 0 < p * q := by omega
      exact Nat.mod_lt _ (Nat.mul_pos hpos hpos)

/-! ### Claims about the homomorphic operations and the encrypt guard -/

/-- C10: `addEncrypted`, `addScalar` and `mulScalar` always return a value in
`[0, n²)` (over `ℕ`, the lower bound is inherent). -/
theorem claim10_ciphertext_range (pub : PublicKey) (c c1 c2 k : ℕ)
    (hn : 0 < pub.n) (hc : c < pub.nSquared) (hc1 : c1 < pub.nSquared)
    (hc2 : c2 < pub.nSquared) :
    addEncrypted c1 c2 pub < pub.nSquared ∧
    addScalar c k pub < pub.nSquared ∧
    mulScalar c k pub < pub.nSquared := by
  have h2 : 0 < pub.nSquared := Nat.mul_pos hn hn
  exact ⟨Nat.mod_lt _ h2, Nat.mod_lt _ h2, modPow_lt _ _ h2⟩

/-- C10 witness at a concrete public key and concrete inputs. -/
theorem claim10_witness :
    0 < (PublicKey.mk 35 36).n ∧ 3 < (PublicKey.mk 35 36).nSquared ∧
    4 < (PublicKey.mk 35 36).nSquared ∧ 5 < (PublicKey.mk 35 36).nSquared ∧
    (addEncrypted 4 5 (PublicKey.mk 35 36) < (PublicKey.mk 35 36).nSquared ∧
     addScalar 3 7 (PublicKey.mk 35 36) < (PublicKey.mk 35 36).nSquared ∧
     mulScalar 3 7 (PublicKey.mk 35 36) < (PublicKey.mk 35 36).nSquared) :=
  ⟨by decide, by decide, by decide, by decide,
    claim10_ciphertext_range (PublicKey.mk 35 36) 3 4 5 7
      (by decide) (by decide) (by decide) (by decide)⟩

/-- C6 (amended): over the signed integers, `encryptWithR` fails iff `m ≥ n`;
in particular a negative plaintext is not rejected, contrary to the claim. -/
theorem claim6_bad_plaintext (m : ℤ) (pub : PublicKey) (r : ℕ) :
    (encryptWithRInt m pub r).isOk = true ↔ m < (pub.n : ℤ) := by
  unfold encryptWithRInt
  by_cases h : (pub.n : ℤ) ≤ m
  · rw [if_pos h]
    simp only [Except.isOk, Except.toBool]
    constructor
    · intro hx; exact Bool.noConfusion hx
    · intro hx; omega
  · rw [if_neg h]
    simp only [Except.isOk, Except.toBool]
    constructor
    · intro _; omega
    · intro _; trivial

/-! ### Claims about the zero-knowledge proof interface -/

theorem verifyLoop_ne_malformed (c : ℕ) (pub : PublicKey) : ∀ (ms as : List ℕ)
    (es zs : List (Option ℕ)),
    verifyLoop c pub ms as es zs ≠ Except.error "Invalid commitment or valid messages" := by
  intro ms
  induction ms with
  | nil => intro as es zs; simp [verifyLoop]
  | cons mi mrest ih =>
    intro as es zs
    match as, es, zs with
    | [], _, _ => simp [verifyLoop]
    | ai :: arest, [], _ => simp [verifyLoop]
    | ai :: arest, none :: erest, _ => simp [verifyLoop]
    | ai :: arest, some ei :: erest, [] => simp [verifyLoop]
    | ai :: arest, some ei :: erest, none :: zrest => simp [verifyLoop]
    | ai :: arest, some ei :: erest, some zi :: zrest =>
      unfold verifyLoop
      split
      · exact ih arest erest zrest
      · simp

/-- C4 (amended): `verifyZkp` raises the MalformedCommitment error exactly when
the aggregate check `3·|valid| = |a| + |e| + |z|` fails; three unequal lengths
summing to `3k` slip through. -/
theorem claim4_malformed_commitment (H : List ℕ → ℕ) (c : ℕ) (valid : List ℕ)
    (commitment : ZkpCommitment) (pub : PublicKey) :
    (verifyZkp H c valid commitment pub =
      Except.error "Invalid commitment or valid messages") ↔
    valid.length * 3 ≠
      commitment.a.length + commitment.e.length + commitment.z.length := by
  unfold verifyZkp
  by_cases h : valid.length * 3 =
      commitment.a.length + commitment.e.length + commitment.z.length
  · rw [if_neg (by omega)]
    have hne : (match reduceAdd (commitment.e.filterMap id) with
        | Except.error s => Except.error s
        | Except.ok esumRaw =>
          if esumRaw % 2 ^ 256 ≠ H commitment.a then Except.ok false
          else verifyLoop c pub valid commitment.a commitment.e commitment.z) ≠
        Except.error "Invalid commitment or valid messages" := by
      cases hE : commitment.e.filterMap id with
      | nil => simp [reduceAdd]
      | cons hhead htail =>
        simp only [reduceAdd]
        split
        · simp
        · exact verifyLoop_ne_malformed c pub valid commitment.a commitment.e commitment.z
    constructor
    · intro hx; exact absurd hx hne
    · intro hx; exact absurd h hx
  · rw [if_pos (by omega)]
    constructor
    · intro _; omega
    · intro _; trivial

/-- C5: calling `createZkp` with the singleton valid set `[m]` (so `k = 1` and
the encrypted message is its only member) fails with the JavaScript
`TypeError` of the initial-value-free reduce over an empty `e` array; no
commitment is returned and NotInValidSet is not raised. -/
theorem claim5_singleton_type_error (H : List ℕ → ℕ) (m c r : ℕ)
    (pub : PublicKey) (omega : ℕ) (es zs : ℕ → ℕ) :
    createZkp H m c r [m] pub omega es zs =
      Except.error "TypeError: Reduce of empty array with no initial value" := by
  unfold createZkp
  simp [show List.range [m].length = [0] from rfl,
    show List.range 1 = [0] from rfl, reduceAdd]

/-! ### Claims about the vote codec -/

theorem toInt32_lt (x : ℤ) : toInt32 x < 2147483648 := by
  have h1 := Int.emod_nonneg x (by norm_num : (4294967296:ℤ) ≠ 0)
  have h2 := Int.emod_lt_of_pos x (by norm_num : (0:ℤ) < 4294967296)
  unfold toInt32
  split <;> omega

theorem jsShl_two_lt_maxSafe (k : ℕ) : jsShl 2 k < maxSafeInteger := by
  have h := toInt32_lt (toInt32 2 * 2 ^ (k % 32))
  unfold jsShl maxSafeInteger
  omega

theorem jsShl_one_small (k : ℕ) (hk : k % 32 ≤ 30) : jsShl 1 k = 2 ^ (k % 32) := by
  unfold jsShl
  rw [show toInt32 1 = 1 from by decide, one_mul]
  have hle : (2:ℤ) ^ (k % 32) ≤ 2 ^ 30 := pow_le_pow_right (by norm_num) hk
  have hnn : (0:ℤ) ≤ 2 ^ (k % 32) := by positivity
  unfold toInt32
  rw [Int.emod_eq_of_lt hnn (by omega)]
  rw [if_pos (by omega)]

/-- C9: the guard `2 << (bitsPerChoice - 1) >= MAX_SAFE_INTEGER` is a 32-bit
JavaScript shift and can never fire, so `encodeSingle` with
`bitsPerChoice = 54` (where `2 ^ 54` exceeds the safe-integer range) returns
an encoding instead of failing with BadParameter. -/
theorem claim9_guard_dead : encodeSingle 1 2 54 0 0 = Except.ok (2 ^ 54) := by decide

theorem ldiff_high_bit : Nat.ldiff (2 ^ 32) (2 ^ 31) = 2 ^ 32 := by
  apply Nat.eq_of_testBit_eq
  intro i
  rw [Nat.testBit_ldiff, Nat.testBit_two_pow, Nat.testBit_two_pow]
  rcases eq_or_ne i 32 with h | h
  · subst h; simp
  · simp [show (32:ℕ) ≠ i from fun he => h he.symm]

theorem ldiff_one_high : Nat.ldiff 1 (2 ^ 31) = 1 := by
  apply Nat.eq_of_testBit_eq
  intro i
  rw [Nat.testBit_ldiff, Nat.testBit_two_pow]
  rcases eq_or_ne i 0 with h | h
  · subst h; simp
  · simp [Nat.testBit_eq_false_of_lt, h]

/-- C8 counterexample: `bitsPerChoice = 33` and `bitsPerChoice = 32` are
accepted by every guard of the codec (`2 ^ B` is below the safe-integer bound
claimed as the only constraint), yet the roundtrip fails at both widths: the
32-bit shift wraps, so at `B = 33` the decode mask collapses to `0` and every
decoded entry is `0`, and at `B = 32` the mask is the negative value
`-(2^31) - 1` whose bit pattern leaks the high bits, decoding `[2^32, 1]`
instead of `[0, 1]`. -/
theorem claim8_counterexample :
    (encodeSingle 0 2 33 0 0 = Except.ok 1 ∧
     decode 1 2 33 = Except.ok [0, 0] ∧
     (Except.ok [0, 0] : Except String (List ℕ)) ≠ Except.ok [1, 0]) ∧
    (encodeSingle 1 2 32 0 0 = Except.ok (2 ^ 32) ∧
     decode (2 ^ 32) 2 32 = Except.ok [4294967296, 1] ∧
     (Except.ok [4294967296, 1] : Except String (List ℕ)) ≠
       Except.ok [0, 1]) := by
  refine ⟨⟨by decide, by decide, by decide⟩, by decide, ?_, by decide⟩
  have h0 : bigAnd (2 ^ 32 >>> (0 * 32)) (jsShl 1 (32 - 1) - 1) = 4294967296 := by
    rw [show (2 ^ 32 >>> (0 * 32) : ℕ) = 2 ^ 32 from by decide,
      show (jsShl 1 (32 - 1) - 1 : ℤ) = -2147483649 from by decide]
    unfold bigAnd
    rw [if_neg (by decide),
      show ((-((-2147483649 : ℤ) + 1)).toNat) = 2 ^ 31 from by decide]
    exact ldiff_high_bit
  have h1 : bigAnd (2 ^ 32 >>> (1 * 32)) (jsShl 1 (32 - 1) - 1) = 1 := by
    rw [show (2 ^ 32 >>> (1 * 32) : ℕ) = 1 from by decide,
      show (jsShl 1 (32 - 1) - 1 : ℤ) = -2147483649 from by decide]
    unfold bigAnd
    rw [if_neg (by decide),
      show ((-((-2147483649 : ℤ) + 1)).toNat) = 2 ^ 31 from by decide]
    exact ldiff_one_high
  unfold decode
  rw [if_neg (by decide)]
  rw [show List.range 2 = [0, 1] from rfl]
  simp only [List.map]
  rw [h0, h1]

/-- C8 (amended): for parameters with `0 ≤ choice < C`, `C ≥ 2` and
`2 ≤ B ≤ 52` with `B ≠ 32` and `B ≠ 33` — the whole domain where
`2 ^ B` stays below `MAX_SAFE_INTEGER`, except the two widths where the
32-bit wrap corrupts the decode mask — the effective decode mask
`2 ^ ((B-1) % 32) - 1` still isolates the single-choice bit, and decoding
the single-choice encoding yields `1` at index `choice` and `0` everywhere
else. -/
theorem claim8_codec_roundtrip (choice numChoices bitsPerChoice : ℕ)
    (hc : choice < numChoices) (hn : 2 ≤ numChoices)
    (hb2 : 2 ≤ bitsPerChoice) (hb52 : bitsPerChoice ≤ 52)
    (hb32 : bitsPerChoice ≠ 32) (hb33 : bitsPerChoice ≠ 33) :
    encodeSingle choice numChoices bitsPerChoice 0 0 =
      Except.ok (2 ^ (bitsPerChoice * choice)) ∧
    decode (2 ^ (bitsPerChoice * choice)) numChoices bitsPerChoice =
      Except.ok ((List.range numChoices).map fun i =>
        if i = choice then 1 else 0) := by
  have hguard := jsShl_two_lt_maxSafe (bitsPerChoice - 1)
  have hs1 : 1 ≤ (bitsPerChoice - 1) % 32 := by omega
  have hsB : (bitsPerChoice - 1) % 32 < bitsPerChoice := by omega
  have hmask : jsShl 1 (bitsPerChoice - 1) = 2 ^ ((bitsPerChoice - 1) % 32) :=
    jsShl_one_small _ (by omega)
  constructor
  · unfold encodeSingle
    rw [if_neg (by omega), if_neg (by simp), if_neg (by omega), if_neg (by omega)]
    have : bitsPerChoice * (0 * numChoices + choice) = bitsPerChoice * choice := by
      ring
    rw [this]
  · unfold decode
    rw [if_neg (by omega)]
    have hmain : ∀ i ∈ List.range numChoices,
        bigAnd (2 ^ (bitsPerChoice * choice) >>> (i * bitsPerChoice))
          (jsShl 1 (bitsPerChoice - 1) - 1) =
        if i = choice then 1 else 0 := by
      intro i _
      rw [hmask]
      have hmz : ((2:ℤ) ^ ((bitsPerChoice - 1) % 32) - 1) =
          (((2 ^ ((bitsPerChoice - 1) % 32) - 1 : ℕ)) : ℤ) := by
        have h1 : (1:ℕ) ≤ 2 ^ ((bitsPerChoice - 1) % 32) := Nat.one_le_two_pow
        push_cast [h1]
        ring
      unfold bigAnd
      rw [hmz, if_pos (by positivity), Int.toNat_natCast]
      rw [Nat.shiftRight_eq_div_pow, Nat.and_pow_two_sub_one_eq_mod]
      rcases Nat.lt_trichotomy i choice with hlt | heq | hgt
      · rw [if_neg (by omega)]
        have hdiv : 2 ^ (bitsPerChoice * choice) / 2 ^ (i * bitsPerChoice) =
            2 ^ (bitsPerChoice * choice - i * bitsPerChoice) :=
          Nat.pow_div (by nlinarith) (by norm_num)
        rw [hdiv]
        apply Nat.mod_eq_zero_of_dvd
        apply pow_dvd_pow
        have h1 : (i + 1) * bitsPerChoice ≤ choice * bitsPerChoice :=
          Nat.mul_le_mul_right _ (by omega)
        have h2 : choice * bitsPerChoice = bitsPerChoice * choice := by ring
        have h3 : (i + 1) * bitsPerChoice = i * bitsPerChoice + bitsPerChoice := by
          ring
        omega
      · subst heq
        rw [if_pos rfl]
        have hdiv : 2 ^ (bitsPerChoice * i) / 2 ^ (i * bitsPerChoice) = 1 := by
          rw [show bitsPerChoice * i = i * bitsPerChoice from by ring]
          exact Nat.div_self (by positivity)
        rw [hdiv]
        apply Nat.mod_eq_of_lt
        have : (1:ℕ) < 2 ^ 1 := by norm_num
        calc (1:ℕ) < 2 ^ 1 := by norm_num
          _ ≤ 2 ^ ((bitsPerChoice - 1) % 32) :=
            Nat.pow_le_pow_right (by norm_num) (by omega)
      · rw [if_neg (by omega)]
        have hdiv : 2 ^ (bitsPerChoice * choice) / 2 ^ (i * bitsPerChoice) = 0 := by
          apply Nat.div_eq_of_lt
          apply Nat.pow_lt_pow_right (by norm_num : 1 < 2)
          nlinarith
        rw [hdiv, Nat.zero_mod]
    rw [List.map_congr_left hmain]

/-! ### Claim about the signature scheme -/

/-- C7: for every key pair from `generateKeyPair bits` with `bits ≥ 256`
(so the 256-bit hash is below `n²`) and every hash value coprime to `n`,
`verifySignature h (createSignature h pub priv) pub = true`. -/
theorem claim7_signature_roundtrip (bits p q h : ℕ) (hk : ValidKeyPair bits p q)
    (hbits : 256 ≤ bits) (hh : h < 2 ^ 256) (hcop : Nat.Coprime h (p * q)) :
    verifySignature h
      (createSignature h (generateKeyPair p q).1 (generateKeyPair p q).2)
      (generateKeyPair p q).1 = true := by
  have hmuL := gkp_mu_lambda bits p q hk
  have hLn : Nat.Coprime (Nat.lcm (p - 1) (q - 1)) (p * q) :=
    validKey_lambda_coprime bits p q hk
  obtain ⟨h8, h160, hp, hq, hne, hpl, hpu, hql, hqu, hnl, hnu⟩ := hk
  have hs2b : 2 ≤ bits / 2 := by omega
  have h4 : (2:ℕ) ^ 2 ≤ 2 ^ (bits / 2 - 1) :=
    Nat.pow_le_pow_right (by norm_num) (by omega)
  have hp2 : 2 < p := by omega
  have hq2 : 2 < q := by omega
  have hn2 : 2 ≤ p * q := le_trans (by norm_num) (Nat.mul_le_mul hp.two_le hq.two_le)
  set n : ℕ := p * q with hndef
  set L : ℕ := Nat.lcm (p - 1) (q - 1) with hLdef
  set mu : ℕ := (generateKeyPair p q).2.mu with hmudef
  -- L is a nontrivial exponent
  have hLpos : 0 < L := Nat.pos_of_ne_zero (Nat.lcm_ne_zero (by omega) (by omega))
  have hL1 : 1 < L := by
    have hdL : (p - 1) ∣ L := Nat.dvd_lcm_left _ _
    have := Nat.le_of_dvd hLpos hdL
    omega
  -- the value v = h^L mod n²
  set v : ℕ := modPow h L (n * n) with hvdef
  have hv : v = h ^ L % (n * n) := modPow_spec h L (n * n)
  have hCar : h ^ L ≡ 1 [MOD n] :=
    carmichael_combine p q h L hp hq hne hcop (Nat.dvd_lcm_left _ _) (Nat.dvd_lcm_right _ _)
  have hv1 : v % n = 1 := by
    have e1 : v % n = h ^ L % n := by
      rw [hv]
      exact Nat.mod_mod_of_dvd _ (dvd_mul_left n n)
    have e2 : h ^ L % n = 1 % n := hCar
    rw [e1, e2, Nat.mod_eq_of_lt (by omega)]
  have hvge1 : 1 ≤ v := by
    rcases Nat.eq_zero_or_pos v with h0 | h1
    · rw [h0] at hv1; simp at hv1
    · exact h1
  have hdvd1 : n ∣ v - 1 := by
    have : (1 : ℕ) ≡ v [MOD n] := by
      show 1 % n = v % n
      rw [hv1, Nat.mod_eq_of_lt (by omega)]
    exact (Nat.modEq_iff_dvd' hvge1).mp this
  set D : ℕ := (v - 1) / n with hDdef
  have hvD : v = 1 + n * D := by
    have hcm := Nat.div_mul_cancel hdvd1
    rw [← hDdef, mul_comm] at hcm
    omega
  -- code values
  set s1 : ℕ := D * mu % n with hs1def
  set invN : ℕ := modInv n L with hinvNdef
  have hinv : n * invN % L = 1 := modInv_mul n L hL1 (Nat.Coprime.symm hLn)
  set K : ℕ := n * invN / L with hKdef
  have hK : L * K + 1 = n * invN := by
    have hdm := Nat.div_add_mod (n * invN) L
    rw [← hKdef] at hdm
    omega
  -- g^s1 mod n = 1, so invG = 1
  have htest : modPow (n + 1) s1 n = 1 := by
    rw [modPow_spec]
    have hb : (n + 1) ≡ 1 [MOD n] := by
      show (n + 1) % n = 1 % n
      exact Nat.add_mod_left n 1
    have := hb.pow s1
    rw [one_pow] at this
    calc (n + 1) ^ s1 % n = 1 % n := this
      _ = 1 := Nat.mod_eq_of_lt (by omega)
  have hinvG : modInv 1 n = 1 := by
    have h1 := modInv_mul 1 n (by omega) (Nat.coprime_one_left n)
    rw [one_mul] at h1
    have h2 := modInv_lt 1 (show 0 < n by omega)
    rwa [Nat.mod_eq_of_lt h2] at h1
  -- the produced s2
  have hs2 : modPow (h * modInv (modPow (n + 1) s1 n) n) invN n = h ^ invN % n := by
    rw [htest, hinvG, mul_one, modPow_spec]
  -- congruence chain for the verification value
  have hmodeq : modPow (n + 1) s1 (n * n) * modPow (h ^ invN % n) n (n * n) ≡
      (1 + n * s1) * ((1 + n * (D * K)) * h) [MOD n * n] := by
    have hA : modPow (n + 1) s1 (n * n) ≡ 1 + n * s1 [MOD n * n] := by
      rw [modPow_spec]
      have e := one_add_mul_pow_modEq n 1 s1
      rw [one_mul] at e
      have : (n + 1) ^ s1 % (n * n) ≡ (n + 1) ^ s1 [MOD n * n] := Nat.mod_modEq _ _
      calc (n + 1) ^ s1 % (n * n) ≡ (n + 1) ^ s1 [MOD n * n] := this
        _ = (1 + n * 1) ^ s1 := by ring_nf
        _ ≡ 1 + n * s1 [MOD n * n] := e
    have hB : modPow (h ^ invN % n) n (n * n) ≡ (1 + n * (D * K)) * h [MOD n * n] := by
      rw [modPow_spec]
      calc (h ^ invN % n) ^ n % (n * n)
          ≡ (h ^ invN % n) ^ n [MOD n * n] := Nat.mod_modEq _ _
        _ ≡ (h ^ invN) ^ n [MOD n * n] := mod_pow_sq (h ^ invN) n
        _ = h ^ (L * K + 1) := by rw [← pow_mul, mul_comm invN n, hK]
        _ = (h ^ L) ^ K * h := by rw [pow_succ, pow_mul]
        _ ≡ v ^ K * h [MOD n * n] := by
            rw [hv]
            exact Nat.ModEq.mul_right h ((Nat.mod_modEq (h ^ L) (n * n)).symm.pow K)
        _ = (1 + n * D) ^ K * h := by rw [hvD]
        _ ≡ (1 + n * (D * K)) * h [MOD n * n] :=
            Nat.ModEq.mul_right h (one_add_mul_pow_modEq n D K)
    exact Nat.ModEq.mul hA hB
  -- n divides s1 + D K
  have hLmu1 : L * mu ≡ 1 [MOD n] := by
    show L * mu % n = 1 % n
    rw [hmuL, Nat.mod_eq_of_lt (by omega)]
  have hcancel : L * (s1 + D * K) ≡ 0 [MOD n] := by
    have hApart : L * s1 ≡ D [MOD n] := by
      calc L * s1 ≡ L * (D * mu) [MOD n] :=
            Nat.ModEq.mul_left L (Nat.mod_modEq (D * mu) n)
        _ = D * (L * mu) := by ring
        _ ≡ D * 1 [MOD n] := Nat.ModEq.mul_left D hLmu1
        _ = D := mul_one D
    have hBpart : (n * invN) * D ≡ 0 [MOD n] :=
      (Nat.modEq_zero_iff_dvd).mpr ⟨invN * D, by ring⟩
    have hT : L * (s1 + D * K) + D ≡ 0 + D [MOD n] := by
      have e : L * (s1 + D * K) + D = L * s1 + (L * K + 1) * D := by ring
      rw [e, hK]
      calc L * s1 + (n * invN) * D ≡ D + 0 [MOD n] := Nat.ModEq.add hApart hBpart
        _ = 0 + D := by ring
    exact (Nat.ModEq.add_right_cancel' D) hT
  have hfinDvd : n ∣ (s1 + D * K) := by
    have hdvd : n ∣ L * (s1 + D * K) := (Nat.modEq_zero_iff_dvd).mp hcancel
    exact Nat.Coprime.dvd_of_dvd_mul_left (Nat.Coprime.symm hLn) hdvd
  obtain ⟨W, hW⟩ := hfinDvd
  -- conclude: the verification value is h
  have hval : modPow (n + 1) s1 (n * n) * modPow (h ^ invN % n) n (n * n) % (n * n) =
      h := by
    have hfinal : modPow (n + 1) s1 (n * n) * modPow (h ^ invN % n) n (n * n) ≡
        h [MOD n * n] := by
      calc modPow (n + 1) s1 (n * n) * modPow (h ^ invN % n) n (n * n)
          ≡ (1 + n * s1) * ((1 + n * (D * K)) * h) [MOD n * n] := hmodeq
        _ = h + (s1 + D * K) * (n * h) + (n * n) * (s1 * (D * K) * h) := by ring
        _ = h + (n * n) * (W * h + s1 * (D * K) * h) := by rw [hW]; ring
        _ ≡ h [MOD n * n] := Nat.add_mul_mod_self_left h (n * n) _
    have hhlt : h < n * n := by
      have h255 : (2:ℕ) ^ 255 ≤ n := le_trans (Nat.pow_le_pow_right (by norm_num) (by omega)) hnl
      have : (2:ℕ) ^ 256 ≤ n * n := by
        calc (2:ℕ) ^ 256 ≤ 2 ^ 510 := Nat.pow_le_pow_right (by norm_num) (by norm_num)
          _ = 2 ^ 255 * 2 ^ 255 := by rw [← pow_add]
          _ ≤ n * n := Nat.mul_le_mul h255 h255
      omega
    calc modPow (n + 1) s1 (n * n) * modPow (h ^ invN % n) n (n * n) % (n * n)
        = h % (n * n) := hfinal
      _ = h := Nat.mod_eq_of_lt hhlt
  -- assemble
  unfold createSignature verifySignature
  dsimp only
  rw [gkp_lambda, gkp_nSquared, gkp_n, gkp_g]
  simp only [← hndef, ← hLdef, ← hmudef, ← hvdef, ← hDdef, ← hs1def, ← hinvNdef]
  rw [hs2, decide_eq_true_eq]
  exact hval

/-! ### List infrastructure for the ZKP claims -/

theorem getD_range_map {α : Type} (f : ℕ → α) (k i : ℕ) (hi : i < k) (d : α) :
    ((List.range k).map f).getD i d = f i := by
  rw [List.getD_eq_getElem?_getD, List.getElem?_map, List.getElem?_range hi]
  rfl

theorem getD_set_self {α : Type} (x d : α) :
    ∀ (l : List α) (i : ℕ), i < l.length → (l.set i x).getD i d = x := by
  intro l
  induction l with
  | nil => intro i hi; simp at hi
  | cons a t ih =>
    intro i hi
    cases i with
    | zero => simp [List.set]
    | succ j =>
      simp only [List.set, List.getD_cons_succ]
      exact ih j (by simpa using hi)

theorem getD_set_other {α : Type} (x d : α) :
    ∀ (l : List α) (i j : ℕ), i ≠ j → (l.set i x).getD j d = l.getD j d := by
  intro l
  induction l with
  | nil => intro i j _; simp [List.set]
  | cons a t ih =>
    intro i j hne
    cases i with
    | zero =>
      cases j with
      | zero => exact absurd rfl hne
      | succ j2 => simp [List.set]
    | succ i2 =>
      cases j with
      | zero => simp [List.set]
      | succ j2 =>
        simp only [List.set, List.getD_cons_succ]
        exact ih i2 j2 (by omega)

theorem foldl_add_eq : ∀ (l : List ℕ) (a : ℕ), List.foldl (· + ·) a l = a + l.sum := by
  intro l
  induction l with
  | nil => intro a; simp
  | cons h t ih =>
    intro a
    simp only [List.foldl_cons, List.sum_cons, ih]
    omega

theorem reduceAdd_ok (l : List ℕ) (hl : l ≠ []) : reduceAdd l = Except.ok l.sum := by
  cases l with
  | nil => exact absurd rfl hl
  | cons h t =>
    simp only [reduceAdd, foldl_add_eq, List.sum_cons]

theorem filterMap_set_sum (x : ℕ) :
    ∀ (l : List (Option ℕ)) (κ : ℕ), κ < l.length → l.getD κ none = none →
    ((l.set κ (some x)).filterMap id).sum = x + (l.filterMap id).sum := by
  intro l
  induction l with
  | nil => intro κ hκ _; simp at hκ
  | cons a t ih =>
    intro κ hκ hnone
    cases κ with
    | zero =>
      have ha : a = none := by simpa using hnone
      subst ha
      simp [List.set]
    | succ j =>
      have hj : j < t.length := by simpa using hκ
      have hn : t.getD j none = none := by simpa using hnone
      cases a with
      | none =>
        simp only [List.set, List.filterMap_cons]
        simp only [id]
        simp only [List.filterMap_cons] at *
        simpa using ih j hj hn
      | some y =>
        simp only [List.set, List.filterMap_cons, id]
        have := ih j hj hn
        simp only [List.filterMap] at this ⊢
        simp [this]
        omega

theorem count_one_exists_unique :
    ∀ (l : List ℕ) (m : ℕ), l.count m = 1 →
    ∃ κ, κ < l.length ∧ l.getD κ 0 = m ∧
      ∀ i, i < l.length → i ≠ κ → l.getD i 0 ≠ m := by
  intro l
  induction l with
  | nil => intro m h; simp at h
  | cons a t ih =>
    intro m h
    rw [List.count_cons] at h
    by_cases ham : m = a
    · have ht0 : List.count m t = 0 := by
        rw [if_pos (show (a == m) = true by simp [ham])] at h; omega
      have hmem : m ∉ t := List.count_eq_zero.mp ht0
      refine ⟨0, by simp, by simpa using ham.symm, ?_⟩
      intro i hi hne
      cases i with
      | zero => exact absurd rfl hne
      | succ j =>
        simp only [List.getD_cons_succ]
        intro hcon
        have hj : j < t.length := by simpa using hi
        apply hmem
        rw [← hcon, List.getD_eq_getElem t 0 hj]
        exact List.getElem_mem hj
    · have ht1 : List.count m t = 1 := by
        rw [if_neg (show ¬ ((a == m) = true) from by
          simp only [beq_iff_eq]
          exact fun hc => ham hc.symm)] at h
        omega
      obtain ⟨κ, hκ, hget, huniq⟩ := ih m ht1
      refine ⟨κ + 1, by simpa using hκ, by simpa using hget, ?_⟩
      intro i hi hne
      cases i with
      | zero =>
        simp only [List.getD_cons_zero]
        exact fun hc => ham hc.symm
      | succ j =>
        simp only [List.getD_cons_succ]
        exact huniq j (by simpa using hi) (by omega)

theorem foldl_lastIdx (valid : List ℕ) (m κ : ℕ)
    (hget : valid.getD κ 0 = m)
    (huniq : ∀ i, i < valid.length → i ≠ κ → valid.getD i 0 ≠ m) :
    ∀ j, j ≤ valid.length → κ < j →
    (List.range j).foldl
      (fun acc i => if valid.getD i 0 = m then some i else acc) none = some κ := by
  intro j
  induction j with
  | zero => intro _ hκ; omega
  | succ j2 ih =>
    intro hle hκ
    rw [List.range_succ, List.foldl_append]
    simp only [List.foldl_cons, List.foldl_nil]
    by_cases hj : j2 = κ
    · subst hj
      rw [if_pos hget]
    · rw [if_neg (huniq j2 (by omega) hj)]
      exact ih (by omega) (by omega)

theorem verifyLoop_ok (c0 : ℕ) (P : PublicKey) :
    ∀ (ms as : List ℕ) (es0 zs0 : List (Option ℕ)),
    as.length = ms.length → es0.length = ms.length → zs0.length = ms.length →
    (∀ i, i < ms.length → ∃ ei zi,
        es0.getD i none = some ei ∧ zs0.getD i none = some zi ∧
        modPow zi P.n P.nSquared =
          as.getD i 0 * modPow (zkpU c0 (ms.getD i 0) P) ei P.nSquared % P.nSquared) →
    verifyLoop c0 P ms as es0 zs0 = Except.ok true := by
  intro ms
  induction ms with
  | nil =>
    intro as es0 zs0 _ _ _ _
    simp [verifyLoop]
  | cons mi mt ih =>
    intro as es0 zs0 hla hle hlz hcl
    match as, es0, zs0 with
    | [], _, _ => simp at hla
    | a0 :: at2, [], _ => simp at hle
    | a0 :: at2, eo0 :: et2, [] => simp at hlz
    | a0 :: at2, eo0 :: et2, zo0 :: zt2 =>
      obtain ⟨ei, zi, hei, hzi, hchk⟩ := hcl 0 (by simp)
      simp only [List.getD_cons_zero] at hei hzi
      subst hei
      subst hzi
      simp only [List.getD_cons_zero] at hchk
      unfold verifyLoop
      rw [if_pos hchk]
      apply ih at2 et2 zt2 (by simpa using hla) (by simpa using hle) (by simpa using hlz)
      intro i hi
      obtain ⟨ei2, zi2, h1, h2, h3⟩ := hcl (i + 1) (by simpa using hi)
      refine ⟨ei2, zi2, ?_, ?_, ?_⟩
      · simpa using h1
      · simpa using h2
      · simpa using h3

/-! ### Coprimality helpers for the ZKP clause identities -/

theorem coprime_mod_left (x m : ℕ) (h : Nat.Coprime x m) : Nat.Coprime (x % m) m := by
  have hgr : Nat.gcd (x % m) m = Nat.gcd m x := (Nat.gcd_rec m x).symm
  unfold Nat.Coprime
  rw [hgr, Nat.gcd_comm]
  exact h

theorem coprime_of_mul_mod_one (x y m : ℕ) (hm : 1 < m) (h : x * y % m = 1) :
    Nat.Coprime x m := by
  have hq := Nat.div_add_mod (x * y) m
  rw [h] at hq
  have hd : Nat.gcd x m ∣ 1 := by
    have h1 : Nat.gcd x m ∣ x * y := Dvd.dvd.mul_right (Nat.gcd_dvd_left x m) y
    have h2 : Nat.gcd x m ∣ m * (x * y / m) := Dvd.dvd.mul_right (Nat.gcd_dvd_right x m) _
    have h3 : x * y - m * (x * y / m) = 1 := by omega
    rw [← h3]
    exact Nat.dvd_sub' h1 h2
  exact Nat.eq_one_of_dvd_one hd

theorem coprime_one_add_mul (n t : ℕ) (hn : 2 ≤ n) : Nat.Coprime (1 + n * t) n := by
  rw [Nat.coprime_comm]
  unfold Nat.Coprime
  rw [Nat.gcd_rec, Nat.add_mul_mod_self_left, Nat.mod_eq_of_lt (by omega), Nat.gcd_rec,
    Nat.mod_one]
  rfl

theorem coprime_g_nsq (p q mi : ℕ) (h2 : 2 ≤ p * q) :
    Nat.Coprime (modPow (p * q + 1) mi ((p * q) * (p * q))) ((p * q) * (p * q)) := by
  rw [modPow_spec]
  apply coprime_mod_left
  have hg : Nat.Coprime (p * q + 1) (p * q) := by
    have := coprime_one_add_mul (p * q) 1 h2
    rwa [mul_one, add_comm] at this
  exact Nat.Coprime.pow_left mi (hg.mul_right hg)

theorem zkpU_coprime (p q c0 mi : ℕ) (h2 : 2 ≤ p * q)
    (hc : Nat.Coprime c0 ((p * q) * (p * q))) :
    Nat.Coprime (zkpU c0 mi (generateKeyPair p q).1) ((p * q) * (p * q)) := by
  have hN2 : 1 < (p * q) * (p * q) := by nlinarith
  unfold zkpU
  rw [gkp_nSquared, gkp_g]
  apply coprime_mod_left
  apply Nat.Coprime.mul hc
  have hmulinv := modInv_mul (modPow (p * q + 1) mi ((p * q) * (p * q)))
    ((p * q) * (p * q)) hN2 (coprime_g_nsq p q mi h2)
  rw [mul_comm] at hmulinv
  exact coprime_of_mul_mod_one _ _ _ hN2 hmulinv

theorem encBody_coprime (p q m r : ℕ) (h2 : 2 ≤ p * q)
    (hr : Nat.Coprime r (p * q)) :
    Nat.Coprime (encBody (generateKeyPair p q).1 m r) ((p * q) * (p * q)) := by
  unfold encBody
  rw [gkp_n, gkp_nSquared, modPow_spec]
  apply coprime_mod_left
  apply Nat.Coprime.mul
  · apply coprime_mod_left
    have h1 : Nat.Coprime (1 + (p * q) * m) (p * q) := coprime_one_add_mul (p * q) m h2
    have h1b : Nat.Coprime (p * q * m + 1) (p * q) := by rwa [add_comm] at h1
    exact h1b.mul_right h1b
  · apply coprime_mod_left
    exact Nat.Coprime.pow_left _ (hr.mul_right hr)

theorem mulInv_cancel_mod (x y m : ℕ) (hm : 1 < m) (hy : Nat.Coprime y m)
    (hx : x < m) : x * modInv y m % m * y % m = x := by
  rw [Nat.mod_mul_mod]
  have e1 : x * modInv y m * y = x * (y * modInv y m) := by ring
  rw [e1, Nat.mul_mod, modInv_mul y m hm hy, mul_one, Nat.mod_mod_of_dvd _ dvd_rfl,
    Nat.mod_eq_of_lt hx]

/-! ### The two clause identities of the OR-proof -/

theorem zkp_sim_identity (p q c0 mi ei zi : ℕ) (h2 : 2 ≤ p * q)
    (hc : Nat.Coprime c0 ((p * q) * (p * q))) :
    modPow zi (p * q) ((p * q) * (p * q)) =
      (modPow zi (p * q) ((p * q) * (p * q)) *
        modInv (modPow (zkpU c0 mi (generateKeyPair p q).1) ei ((p * q) * (p * q)))
          ((p * q) * (p * q)) % ((p * q) * (p * q))) *
      modPow (zkpU c0 mi (generateKeyPair p q).1) ei ((p * q) * (p * q)) %
      ((p * q) * (p * q)) := by
  have hN2 : 1 < (p * q) * (p * q) := by nlinarith
  have hu := zkpU_coprime p q c0 mi h2 hc
  have huiei : Nat.Coprime
      (modPow (zkpU c0 mi (generateKeyPair p q).1) ei ((p * q) * (p * q)))
      ((p * q) * (p * q)) := by
    rw [modPow_spec]
    exact coprime_mod_left _ _ (Nat.Coprime.pow_left ei hu)
  exact (mulInv_cancel_mod _ _ _ hN2 huiei (modPow_lt _ _ (by omega))).symm

theorem zkpU_real_modEq (p q m r : ℕ) (h2 : 2 ≤ p * q) (hm : m < p * q)
    (hr : Nat.Coprime r (p * q)) :
    zkpU (encBody (generateKeyPair p q).1 m r) m (generateKeyPair p q).1 ≡
      r ^ (p * q) [MOD (p * q) * (p * q)] := by
  have hN2 : 1 < (p * q) * (p * q) := by nlinarith
  have hgm : modPow (p * q + 1) m ((p * q) * (p * q)) = 1 + (p * q) * m := by
    rw [modPow_spec]
    have e := one_add_mul_pow_modEq (p * q) 1 m
    rw [one_mul] at e
    have e2 : (p * q + 1) ^ m % ((p * q) * (p * q)) =
        (1 + (p * q) * m) % ((p * q) * (p * q)) := by
      rw [show p * q + 1 = 1 + (p * q) * 1 from by ring]
      exact e
    rw [e2]
    apply Nat.mod_eq_of_lt
    nlinarith
  have hco1 : Nat.Coprime (1 + (p * q) * m) ((p * q) * (p * q)) := by
    have h1 := coprime_one_add_mul (p * q) m h2
    exact h1.mul_right h1
  have hw : (1 + (p * q) * m) * modInv (1 + (p * q) * m) ((p * q) * (p * q)) %
      ((p * q) * (p * q)) = 1 := modInv_mul _ _ hN2 hco1
  have hwME : (1 + (p * q) * m) * modInv (1 + (p * q) * m) ((p * q) * (p * q)) ≡
      1 [MOD (p * q) * (p * q)] := by
    show _ % _ = 1 % _
    rw [hw, Nat.mod_eq_of_lt hN2]
  unfold zkpU
  rw [gkp_nSquared, gkp_g, hgm]
  calc encBody (generateKeyPair p q).1 m r *
        modInv (1 + (p * q) * m) ((p * q) * (p * q)) % ((p * q) * (p * q))
      ≡ encBody (generateKeyPair p q).1 m r *
        modInv (1 + (p * q) * m) ((p * q) * (p * q)) [MOD (p * q) * (p * q)] :=
        Nat.mod_modEq _ _
    _ ≡ ((1 + (p * q) * m) * r ^ (p * q)) *
        modInv (1 + (p * q) * m) ((p * q) * (p * q)) [MOD (p * q) * (p * q)] :=
        Nat.ModEq.mul_right _ (encBody_modEq p q m r)
    _ = r ^ (p * q) *
        ((1 + (p * q) * m) * modInv (1 + (p * q) * m) ((p * q) * (p * q))) := by
        ring
    _ ≡ r ^ (p * q) * 1 [MOD (p * q) * (p * q)] := Nat.ModEq.mul_left _ hwME
    _ = r ^ (p * q) := mul_one _

theorem zkp_real_identity (p q m r ek omega : ℕ) (h2 : 2 ≤ p * q) (hm : m < p * q)
    (hr : Nat.Coprime r (p * q)) :
    modPow (omega * modPow r ek (p * q) % (p * q)) (p * q) ((p * q) * (p * q)) =
      modPow omega (p * q) ((p * q) * (p * q)) *
        modPow (zkpU (encBody (generateKeyPair p q).1 m r) m (generateKeyPair p q).1)
          ek ((p * q) * (p * q)) % ((p * q) * (p * q)) := by
  have hN2 : 1 < (p * q) * (p * q) := by nlinarith
  have hN2pos : 0 < (p * q) * (p * q) := by omega
  have huk := zkpU_real_modEq p q m r h2 hm hr
  have hL : modPow (omega * modPow r ek (p * q) % (p * q)) (p * q) ((p * q) * (p * q)) ≡
      omega ^ (p * q) * r ^ (ek * (p * q)) [MOD (p * q) * (p * q)] := by
    rw [modPow_spec, modPow_spec]
    calc (omega * (r ^ ek % (p * q)) % (p * q)) ^ (p * q) % ((p * q) * (p * q))
        ≡ (omega * (r ^ ek % (p * q)) % (p * q)) ^ (p * q)
          [MOD (p * q) * (p * q)] := Nat.mod_modEq _ _
      _ ≡ (omega * (r ^ ek % (p * q))) ^ (p * q) [MOD (p * q) * (p * q)] :=
          mod_pow_sq _ _
      _ = omega ^ (p * q) * (r ^ ek % (p * q)) ^ (p * q) := mul_pow _ _ _
      _ ≡ omega ^ (p * q) * (r ^ ek) ^ (p * q) [MOD (p * q) * (p * q)] :=
          Nat.ModEq.mul_left _ (mod_pow_sq _ _)
      _ = omega ^ (p * q) * r ^ (ek * (p * q)) := by rw [← pow_mul]
  have hR : modPow omega (p * q) ((p * q) * (p * q)) *
      modPow (zkpU (encBody (generateKeyPair p q).1 m r) m (generateKeyPair p q).1)
        ek ((p * q) * (p * q)) % ((p * q) * (p * q)) ≡
      omega ^ (p * q) * r ^ (ek * (p * q)) [MOD (p * q) * (p * q)] := by
    rw [modPow_spec, modPow_spec]
    calc omega ^ (p * q) % ((p * q) * (p * q)) *
          ((zkpU (encBody (generateKeyPair p q).1 m r) m (generateKeyPair p q).1) ^ ek %
            ((p * q) * (p * q))) % ((p * q) * (p * q))
        ≡ omega ^ (p * q) *
          (zkpU (encBody (generateKeyPair p q).1 m r) m (generateKeyPair p q).1) ^ ek
          [MOD (p * q) * (p * q)] := by
          rw [← Nat.mul_mod]
          exact Nat.mod_modEq _ _
      _ ≡ omega ^ (p * q) * (r ^ (p * q)) ^ ek [MOD (p * q) * (p * q)] :=
          Nat.ModEq.mul_left _ (huk.pow ek)
      _ = omega ^ (p * q) * r ^ (ek * (p * q)) := by
          rw [← pow_mul, mul_comm (p * q) ek]
  have hfin := hL.trans hR.symm
  have hlt1 : modPow (omega * modPow r ek (p * q) % (p * q)) (p * q)
      ((p * q) * (p * q)) < (p * q) * (p * q) := modPow_lt _ _ hN2pos
  have hlt2 : modPow omega (p * q) ((p * q) * (p * q)) *
      modPow (zkpU (encBody (generateKeyPair p q).1 m r) m (generateKeyPair p q).1)
        ek ((p * q) * (p * q)) % ((p * q) * (p * q)) < (p * q) * (p * q) :=
    Nat.mod_lt _ hN2pos
  have hme : _ % ((p * q) * (p * q)) = _ % ((p * q) * (p * q)) := hfin
  rwa [Nat.mod_eq_of_lt hlt1, Nat.mod_eq_of_lt hlt2] at hme

theorem challenge_sum_mod (M C S : ℕ) (hM : 0 < M) (hC : C < M) :
    ((((C : ℤ) - ((S % M : ℕ) : ℤ)) % ((M : ℕ) : ℤ)).toNat + S) % M = C := by
  have hMz : ((M : ℕ) : ℤ) ≠ 0 := by exact_mod_cast hM.ne'
  have hnn : 0 ≤ ((C : ℤ) - ((S % M : ℕ) : ℤ)) % ((M : ℕ) : ℤ) :=
    Int.emod_nonneg _ hMz
  have hSmod : ((S % M : ℕ) : ℤ) = (S : ℤ) % ((M : ℕ) : ℤ) := by push_cast; rfl
  have hcast : (((((((C : ℤ) - ((S % M : ℕ) : ℤ)) % ((M : ℕ) : ℤ)).toNat + S) %
      M : ℕ)) : ℤ) = (C : ℤ) := by
    have e0 : (((((((C : ℤ) - ((S % M : ℕ) : ℤ)) % ((M : ℕ) : ℤ)).toNat + S) %
        M : ℕ)) : ℤ) =
        ((((C : ℤ) - ((S % M : ℕ) : ℤ)) % ((M : ℕ) : ℤ) + (S : ℤ)) % ((M : ℕ) : ℤ)) := by
      push_cast
      rw [Int.toNat_of_nonneg (Int.emod_nonneg _ hMz)]
    rw [e0, hSmod, Int.emod_add_emod]
    have e : (C : ℤ) - (S : ℤ) % ((M : ℕ) : ℤ) + (S : ℤ) =
        (C : ℤ) + ((M : ℕ) : ℤ) * ((S : ℤ) / ((M : ℕ) : ℤ)) := by
      rw [Int.emod_def]
      ring
    rw [e, Int.add_mul_emod_self_left,
      Int.emod_eq_of_lt (by positivity) (by exact_mod_cast hC)]
  exact_mod_cast hcast

/-- C3 (amended): ZKP completeness for valid sets of length `k ≥ 2` containing
the encrypted message exactly once.  (The original claim also allowed `k = 1`,
where the prover crashes; see the counterexample and C5.) -/
theorem claim3_zkp_completeness (bits p q : ℕ) (hk : ValidKeyPair bits p q)
    (H : List ℕ → ℕ) (hH : ∀ l, H l < 2 ^ 256)
    (m r : ℕ) (hm : m < p * q) (hr : Nat.Coprime r (p * q)) (hrlt : r < p * q)
    (valid : List ℕ) (hlen : 2 ≤ valid.length) (hcount : valid.count m = 1)
    (omega : ℕ) (homega : Nat.Coprime omega (p * q)) (homegalt : omega < p * q)
    (es zs : ℕ → ℕ) :
    ∃ commitment : ZkpCommitment,
      createZkp H m (encBody (generateKeyPair p q).1 m r) r valid
        (generateKeyPair p q).1 omega es zs = Except.ok commitment ∧
      verifyZkp H (encBody (generateKeyPair p q).1 m r) valid commitment
        (generateKeyPair p q).1 = Except.ok true := by
  obtain ⟨κ, hκ, hgetκ, huniq⟩ := count_one_exists_unique valid m hcount
  have hp := hk.2.2.1
  have hq := hk.2.2.2.1
  have h2 : 2 ≤ p * q := le_trans (by norm_num) (Nat.mul_le_mul hp.two_le hq.two_le)
  have hcb : Nat.Coprime (encBody (generateKeyPair p q).1 m r) ((p * q) * (p * q)) :=
    encBody_coprime p q m r h2 hr
  set P := (generateKeyPair p q).1 with hPdef
  set c0 := encBody P m r with hc0def
  have hPn : P.n = p * q := by rw [hPdef]; rfl
  have hPn2 : P.nSquared = (p * q) * (p * q) := by rw [hPdef]; rfl
  set k := valid.length with hkdef
  set aL := (List.range k).map
    (fun i => zkpClauseA m c0 P omega (es i) (zs i) (valid.getD i 0)) with haL
  set e0 := (List.range k).map
    (fun i => if valid.getD i 0 ≠ m then some (es i) else none) with he0
  set z0 := (List.range k).map
    (fun i => if valid.getD i 0 ≠ m then some (zs i) else none) with hz0
  have hlenA : aL.length = k := by rw [haL]; simp
  have hlenE0 : e0.length = k := by rw [he0]; simp
  have hlenZ0 : z0.length = k := by rw [hz0]; simp
  have hκk : κ < k := by omega
  have hmk : (List.range k).foldl
      (fun acc i => if valid.getD i 0 = m then some i else acc) none = some κ :=
    foldl_lastIdx valid m κ hgetκ huniq k le_rfl hκk
  -- a present entry of the pre-fill e array
  have hi0 : ∃ i0, i0 < k ∧ i0 ≠ κ := by
    by_cases hκ0 : κ = 0
    · exact ⟨1, by omega, by omega⟩
    · exact ⟨0, by omega, fun hc => hκ0 hc.symm⟩
  obtain ⟨i0, hi0k, hi0κ⟩ := hi0
  have hvi0 : valid.getD i0 0 ≠ m := huniq i0 (by omega) hi0κ
  have hmem0 : some (es i0) ∈ e0 := by
    rw [he0]
    exact List.mem_map.mpr ⟨i0, List.mem_range.mpr hi0k, by rw [if_pos hvi0]⟩
  have hne : e0.filterMap id ≠ [] :=
    List.ne_nil_of_mem (List.mem_filterMap.mpr ⟨some (es i0), hmem0, rfl⟩)
  set S := (e0.filterMap id).sum with hS
  have hred : reduceAdd (e0.filterMap id) = Except.ok S := reduceAdd_ok _ hne
  set C := H aL with hC
  have hClt : C < 2 ^ 256 := by rw [hC]; exact hH aL
  set ek := (((C : ℤ) - ((S % 2 ^ 256 : ℕ) : ℤ)) % (2 ^ 256 : ℤ)).toNat with hek
  set zk := omega * modPow r ek P.n % P.n with hzkdef
  set eF := e0.set κ (some ek) with heF
  set zF := z0.set κ (some zk) with hzF
  have hlenE : eF.length = k := by rw [heF, List.length_set]; exact hlenE0
  have hlenZ : zF.length = k := by rw [hzF, List.length_set]; exact hlenZ0
  refine ⟨ZkpCommitment.mk aL eF zF, ?_, ?_⟩
  · -- the prover succeeds and returns exactly this commitment
    unfold createZkp
    simp only [← hkdef, ← haL, ← he0, ← hz0]
    rw [hmk]
    dsimp only
    rw [hred]
  · -- the verifier accepts
    have he0κ : e0.getD κ none = none := by
      rw [he0, getD_range_map _ k κ hκk, if_neg (not_not_intro hgetκ)]
    have heFκ : eF.getD κ none = some ek := by
      rw [heF]
      exact getD_set_self (some ek) none e0 κ (by omega)
    have hzFκ : zF.getD κ none = some zk := by
      rw [hzF]
      exact getD_set_self (some zk) none z0 κ (by omega)
    have hsum : (eF.filterMap id).sum = ek + S := by
      rw [heF, filterMap_set_sum ek e0 κ (by omega) he0κ, hS]
    have hFne : eF.filterMap id ≠ [] := by
      have hκF : κ < eF.length := by omega
      have hgetF : eF[κ] = some ek := by
        rw [← List.getD_eq_getElem eF none hκF]
        exact heFκ
      have hmemF : some ek ∈ eF := by
        rw [← hgetF]
        exact List.getElem_mem hκF
      exact List.ne_nil_of_mem (List.mem_filterMap.mpr ⟨some ek, hmemF, rfl⟩)
    have hredF : reduceAdd (eF.filterMap id) = Except.ok (ek + S) := by
      rw [reduceAdd_ok _ hFne, hsum]
    have hesum : (ek + S) % 2 ^ 256 = H aL := by
      have h0 := challenge_sum_mod (2 ^ 256) C S (by positivity) hClt
      rw [show ((2 ^ 256 : ℕ) : ℤ) = (2 ^ 256 : ℤ) from by norm_cast, ← hek] at h0
      rw [h0, hC]
    unfold verifyZkp
    dsimp only
    rw [if_neg (by omega)]
    rw [hredF]
    dsimp only
    rw [if_neg (by rw [hesum]; exact not_not_intro rfl)]
    apply verifyLoop_ok c0 P valid aL eF zF (by omega) (by omega) (by omega)
    intro i hi
    by_cases hiκ : i = κ
    · subst hiκ
      refine ⟨ek, zk, heFκ, hzFκ, ?_⟩
      have haLκ : aL.getD i 0 =
          zkpClauseA m c0 P omega (es i) (zs i) (valid.getD i 0) := by
        rw [haL]
        exact getD_range_map _ k i (by omega) 0
      rw [haLκ, hgetκ]
      have hclause : zkpClauseA m c0 P omega (es i) (zs i) m =
          modPow omega P.n P.nSquared := by
        unfold zkpClauseA
        rw [if_neg (not_not_intro rfl)]
      rw [hclause, hzkdef, hPn, hPn2, hc0def, hPdef]
      exact zkp_real_identity p q m r ek omega h2 hm hr
    · have hvne : valid.getD i 0 ≠ m := huniq i (by omega) hiκ
      refine ⟨es i, zs i, ?_, ?_, ?_⟩
      · rw [heF, getD_set_other (some ek) none e0 κ i (fun hc => hiκ hc.symm),
          he0, getD_range_map _ k i (by omega), if_pos hvne]
      · rw [hzF, getD_set_other (some zk) none z0 κ i (fun hc => hiκ hc.symm),
          hz0, getD_range_map _ k i (by omega), if_pos hvne]
      · have haLi : aL.getD i 0 =
            zkpClauseA m c0 P omega (es i) (zs i) (valid.getD i 0) := by
          rw [haL]
          exact getD_range_map _ k i (by omega) 0
        rw [haLi]
        have hclause : zkpClauseA m c0 P omega (es i) (zs i) (valid.getD i 0) =
            modPow (zs i) P.n P.nSquared *
              modInv (modPow (zkpU c0 (valid.getD i 0) P) (es i) P.nSquared)
                P.nSquared % P.nSquared := by
          unfold zkpClauseA
          rw [if_pos hvne]
        rw [hclause, hPn2, hPn, hPdef]
        exact zkp_sim_identity p q c0 (valid.getD i 0) (es i) (zs i) h2 hcb

/-! ### A concrete 256-bit key: primality certificates and witnesses -/

theorem zmod_pow_eq_one_iff (a e P : ℕ) (hP : 1 < P) :
    ((a : ZMod P)) ^ e = 1 ↔ modPow a e P = 1 := by
  have h1 : ((a : ZMod P)) ^ e = ((a ^ e : ℕ) : ZMod P) := by push_cast; rfl
  have h2 : (1 : ZMod P) = ((1 : ℕ) : ZMod P) := by push_cast; rfl
  rw [h1, h2, ZMod.natCast_eq_natCast_iff']
  rw [modPow_spec, Nat.mod_eq_of_lt hP]

set_option maxRecDepth 40000 in
theorem pWit_prime : Nat.Prime pWit := by
  have hP : 1 < pWit := by decide
  apply lucas_primality pWit ((3 : ℕ) : ZMod pWit)
  · rw [zmod_pow_eq_one_iff 3 (pWit - 1) pWit hP]
    decide
  · intro q hq hdvd
    have hfact : pWit - 1 = 11 * 37 * 2 ^ 119 := by decide
    rw [hfact] at hdvd
    have hq2 : q = 11 ∨ q = 37 ∨ q = 2 := by
      rcases (Nat.Prime.dvd_mul hq).mp hdvd with h | h
      · rcases (Nat.Prime.dvd_mul hq).mp h with h2 | h2
        · exact Or.inl ((Nat.prime_dvd_prime_iff_eq hq (by norm_num)).mp h2)
        · exact Or.inr (Or.inl ((Nat.prime_dvd_prime_iff_eq hq (by norm_num)).mp h2))
      · exact Or.inr (Or.inr ((Nat.prime_dvd_prime_iff_eq hq (by norm_num)).mp
          (hq.dvd_of_dvd_pow h)))
    rw [Ne, zmod_pow_eq_one_iff 3 ((pWit - 1) / q) pWit hP]
    rcases hq2 with h | h | h <;> subst h <;> decide

set_option maxRecDepth 40000 in
theorem qWit_prime : Nat.Prime qWit := by
  have hP : 1 < qWit := by decide
  apply lucas_primality qWit ((3 : ℕ) : ZMod qWit)
  · rw [zmod_pow_eq_one_iff 3 (qWit - 1) qWit hP]
    decide
  · intro q hq hdvd
    have hfact : qWit - 1 = 13 * 73 * 2 ^ 118 := by decide
    rw [hfact] at hdvd
    have hq2 : q = 13 ∨ q = 73 ∨ q = 2 := by
      rcases (Nat.Prime.dvd_mul hq).mp hdvd with h | h
      · rcases (Nat.Prime.dvd_mul hq).mp h with h2 | h2
        · exact Or.inl ((Nat.prime_dvd_prime_iff_eq hq (by norm_num)).mp h2)
        · exact Or.inr (Or.inl ((Nat.prime_dvd_prime_iff_eq hq (by norm_num)).mp h2))
      · exact Or.inr (Or.inr ((Nat.prime_dvd_prime_iff_eq hq (by norm_num)).mp
          (hq.dvd_of_dvd_pow h)))
    rw [Ne, zmod_pow_eq_one_iff 3 ((qWit - 1) / q) qWit hP]
    rcases hq2 with h | h | h <;> subst h <;> decide

set_option maxRecDepth 40000 in
theorem validKeyWit : ValidKeyPair 256 pWit qWit := by
  refine ⟨by decide, by decide, pWit_prime, qWit_prime, by decide,
    by decide, by decide, by decide, by decide, by decide, by decide⟩

theorem coprime_wit (s : ℕ) (hs : Nat.Prime s) (h1 : s ≠ pWit) (h2 : s ≠ qWit) :
    Nat.Coprime s (pWit * qWit) :=
  Nat.Coprime.mul_right
    ((Nat.coprime_primes hs pWit_prime).mpr h1)
    ((Nat.coprime_primes hs qWit_prime).mpr h2)

theorem hashWit_lt (l : List ℕ) : hashWit l < 2 ^ 256 := by
  unfold hashWit
  exact Nat.mod_lt _ (by positivity)

/-- C1 witness: the concrete 256-bit key pair, plaintext 12345 and
multiplier 7. -/
theorem claim1_witness :
    ValidKeyPair 256 pWit qWit ∧ 12345 < pWit * qWit ∧
    Nat.Coprime 7 (pWit * qWit) ∧ 7 < pWit * qWit ∧
    (∃ c : ℕ, encryptWithR 12345 (generateKeyPair pWit qWit).1 7 = Except.ok (c, 7) ∧
      decrypt c (generateKeyPair pWit qWit).1 (generateKeyPair pWit qWit).2 =
        Except.ok 12345) :=
  ⟨validKeyWit, by decide, coprime_wit 7 (by norm_num) (by decide) (by decide),
    by decide,
    claim1_encrypt_decrypt_roundtrip 256 pWit qWit 12345 7 validKeyWit (by decide)
      (coprime_wit 7 (by norm_num) (by decide) (by decide)) (by decide)⟩

/-- C2 witness: plaintexts 3 and 5 with multipliers 7 and 11 at the concrete
key. -/
theorem claim2_witness :
    ValidKeyPair 256 pWit qWit ∧ 3 < pWit * qWit ∧ 5 < pWit * qWit ∧
    Nat.Coprime 7 (pWit * qWit) ∧ 7 < pWit * qWit ∧
    Nat.Coprime 11 (pWit * qWit) ∧ 11 < pWit * qWit ∧
    (∃ c1 c2 : ℕ,
      encryptWithR 3 (generateKeyPair pWit qWit).1 7 = Except.ok (c1, 7) ∧
      encryptWithR 5 (generateKeyPair pWit qWit).1 11 = Except.ok (c2, 11) ∧
      decrypt (addEncrypted c1 c2 (generateKeyPair pWit qWit).1)
        (generateKeyPair pWit qWit).1 (generateKeyPair pWit qWit).2 =
        Except.ok ((3 + 5) % (pWit * qWit))) :=
  ⟨validKeyWit, by decide, by decide,
    coprime_wit 7 (by norm_num) (by decide) (by decide), by decide,
    coprime_wit 11 (by norm_num) (by decide) (by decide), by decide,
    claim2_homomorphic_add 256 pWit qWit 3 5 7 11 validKeyWit (by decide) (by decide)
      (coprime_wit 7 (by norm_num) (by decide) (by decide)) (by decide)
      (coprime_wit 11 (by norm_num) (by decide) (by decide)) (by decide)⟩

/-- C3 witness: valid set `[5, 6]` of length 2, message 5, at the concrete
key. -/
theorem claim3_witness :
    ValidKeyPair 256 pWit qWit ∧ (∀ l, hashWit l < 2 ^ 256) ∧
    5 < pWit * qWit ∧ Nat.Coprime 7 (pWit * qWit) ∧ 7 < pWit * qWit ∧
    2 ≤ ([5, 6] : List ℕ).length ∧ ([5, 6] : List ℕ).count 5 = 1 ∧
    Nat.Coprime 11 (pWit * qWit) ∧ 11 < pWit * qWit ∧
    (∃ commitment : ZkpCommitment,
      createZkp hashWit 5 (encBody (generateKeyPair pWit qWit).1 5 7) 7 [5, 6]
        (generateKeyPair pWit qWit).1 11 (fun _ => 13) (fun _ => 17) =
        Except.ok commitment ∧
      verifyZkp hashWit (encBody (generateKeyPair pWit qWit).1 5 7) [5, 6] commitment
        (generateKeyPair pWit qWit).1 = Except.ok true) :=
  ⟨validKeyWit, hashWit_lt, by decide,
    coprime_wit 7 (by norm_num) (by decide) (by decide), by decide,
    by decide, by decide,
    coprime_wit 11 (by norm_num) (by decide) (by decide), by decide,
    claim3_zkp_completeness 256 pWit qWit validKeyWit hashWit hashWit_lt 5 7
      (by decide) (coprime_wit 7 (by norm_num) (by decide) (by decide)) (by decide)
      [5, 6] (by decide) (by decide) 11
      (coprime_wit 11 (by norm_num) (by decide) (by decide)) (by decide)
      (fun _ => 13) (fun _ => 17)⟩

/-- C3 counterexample: at the concrete key, the singleton valid set `[5]`
containing the encrypted message (the `k = 1` case the claim includes) makes
`createZkp` fail with the reduce TypeError, so no commitment reaches the
verifier. -/
theorem claim3_counterexample :
    ValidKeyPair 256 pWit qWit ∧
    createZkp hashWit 5 (encBody (generateKeyPair pWit qWit).1 5 7) 7 [5]
      (generateKeyPair pWit qWit).1 11 (fun _ => 13) (fun _ => 17) =
      Except.error "TypeError: Reduce of empty array with no initial value" := by
  refine ⟨validKeyWit, ?_⟩
  unfold createZkp
  simp [show List.range [(5:ℕ)].length = [0] from rfl,
    show List.range 1 = [0] from rfl, reduceAdd]

/-- C6 counterexample: at a key pair from `generateKeyPair`, encrypting the
negative plaintext `-1` returns a value instead of failing with
BadPlaintext. -/
theorem claim6_counterexample :
    ValidKeyPair 256 pWit qWit ∧
    (encryptWithRInt (-1) (generateKeyPair pWit qWit).1 7).isOk = true := by
  refine ⟨validKeyWit, ?_⟩
  unfold encryptWithRInt
  rw [if_neg (by decide)]
  rfl

/-- C7 witness: hash value 7 (coprime to `n`, below `2 ^ 256`) at the concrete
256-bit key. -/
theorem claim7_witness :
    ValidKeyPair 256 pWit qWit ∧ 256 ≤ 256 ∧ 7 < 2 ^ 256 ∧
    Nat.Coprime 7 (pWit * qWit) ∧
    verifySignature 7
      (createSignature 7 (generateKeyPair pWit qWit).1 (generateKeyPair pWit qWit).2)
      (generateKeyPair pWit qWit).1 = true :=
  ⟨validKeyWit, le_rfl, by decide,
    coprime_wit 7 (by norm_num) (by decide) (by decide),
    claim7_signature_roundtrip 256 pWit qWit 7 validKeyWit le_rfl (by decide)
      (coprime_wit 7 (by norm_num) (by decide) (by decide))⟩

/-- C8 witness: choice 1 of 3 with 34 bits per choice, a width beyond the
32-bit wrap where the collapsed mask `2 ^ 1 - 1` still decodes correctly. -/
theorem claim8_witness :
    1 < 3 ∧ 2 ≤ 3 ∧ 2 ≤ 34 ∧ 34 ≤ 52 ∧ 34 ≠ 32 ∧ 34 ≠ 33 ∧
    (encodeSingle 1 3 34 0 0 = Except.ok (2 ^ (34 * 1)) ∧
     decode (2 ^ (34 * 1)) 3 34 =
       Except.ok ((List.range 3).map fun i => if i = 1 then 1 else 0)) :=
  ⟨by decide, by decide, by decide, by decide, by decide, by decide,
    claim8_codec_roundtrip 1 3 34 (by decide) (by decide) (by decide)
      (by decide) (by decide) (by decide)⟩

/-- C4 counterexample: a commitment with array lengths 3, 1 and 2 for a valid
set of size 2 (unequal lengths summing to 3k) passes the aggregate length
check; `verifyZkp` proceeds and returns `false` from the challenge-sum check
instead of failing with MalformedCommitment. -/
theorem claim4_counterexample :
    verifyZkp (fun _ => 0) 1 [1, 2]
      (ZkpCommitment.mk [0, 0, 0] [some 5] [some 0, some 0])
      (PublicKey.mk 35 36) = Except.ok false := by decide
